import Mathlib

set_option maxHeartbeats 1000000
set_option maxRecDepth 8000

/-!
Verification development for the stabilizer-rank decomposition simulator.

The engine is embedded semantically: amplitudes live in the exact ring
ℚ[ω] with ω = exp(iπ/4) (every state reachable by the Clifford+T gate set
from |0…0⟩ has amplitudes in this ring), real-valued quantities (squared
norms, probabilities) live in the subring ℚ[√2].  A state is the ordered
list of (coefficient, stabilizer-term) pairs demanded by the stabilizer-sum
data model, together with a formal positive denominator `denom` in ℚ[√2]:
the represented vector is (Σ cₖ ψₖ) / √denom, which keeps renormalization
exact.
-/

deriving instance DecidableEq for Except

/-- A dyadic pair (z, k), denoting z/2^k, is canonical when k = 0 or z is odd. -/
def DyCanon (p : ℤ × ℕ) : Prop := p.1 % 2 ≠ 0 ∨ p.2 = 0

instance (p : ℤ × ℕ) : Decidable (DyCanon p) := by
  unfold DyCanon
  infer_instance

/-- The ring ℤ[1/2] of dyadic rationals in canonical representation: every
constant of the engine (1/√2-factors, T-injection coefficients) is dyadic, so
this carrier is exact and all arithmetic reduces structurally. -/
def Dy : Type := {p : ℤ × ℕ // DyCanon p}

instance : DecidableEq Dy := by
  unfold Dy
  infer_instance

/-- Strip factors of two, structurally on the exponent. -/
def dyNorm : ℤ → ℕ → ℤ × ℕ
  | z, 0 => (z, 0)
  | z, k + 1 => if z % 2 = 0 then dyNorm (z / 2) k else (z, k + 1)

theorem dyNorm_canon (z : ℤ) (k : ℕ) : DyCanon (dyNorm z k) := by
  induction k generalizing z with
  | zero => exact Or.inr rfl
  | succ k ih =>
      unfold dyNorm
      split
      · exact ih _
      · exact Or.inl (by assumption)

def mkDy (z : ℤ) (k : ℕ) : Dy := ⟨dyNorm z k, dyNorm_canon z k⟩

/-- Value of a dyadic pair in ℚ (proof layer only). -/
def dyVal (p : ℤ × ℕ) : ℚ := (p.1 : ℚ) / 2 ^ p.2

theorem dyNorm_val (z : ℤ) (k : ℕ) : dyVal (dyNorm z k) = dyVal (z, k) := by
  induction k generalizing z with
  | zero => rfl
  | succ k ih =>
      unfold dyNorm
      split
      · rename_i h
        rw [ih]
        obtain ⟨w, hw⟩ := Int.dvd_of_emod_eq_zero h
        subst hw
        rw [Int.mul_ediv_cancel_left w (by norm_num)]
        unfold dyVal
        push_cast
        rw [pow_succ]
        have h2 : ((2 : ℚ) ^ k) ≠ 0 := by positivity
        field_simp
        ring
      · rfl

theorem dyVal_inj_aux {z1 z2 : ℤ} {k1 k2 : ℕ} (hle : k1 ≤ k2)
    (hq : DyCanon (z2, k2)) (h : z1 * 2 ^ (k2 - k1) = z2) :
    k2 - k1 = 0 := by
  by_contra hm
  have hdvd : (2 : ℤ) ∣ z2 := by
    refine ⟨z1 * 2 ^ (k2 - k1 - 1), ?_⟩
    rw [← h]
    have hexp : k2 - k1 = (k2 - k1 - 1) + 1 := by omega
    calc z1 * 2 ^ (k2 - k1) = z1 * 2 ^ ((k2 - k1 - 1) + 1) := by rw [← hexp]
      _ = 2 * (z1 * 2 ^ (k2 - k1 - 1)) := by rw [pow_succ]; ring
  rcases hq with hodd | hk
  · exact hodd (Int.emod_eq_zero_of_dvd hdvd)
  · omega

theorem dyVal_inj {p q : ℤ × ℕ} (hp : DyCanon p) (hq : DyCanon q)
    (h : dyVal p = dyVal q) : p = q := by
  obtain ⟨z1, k1⟩ := p
  obtain ⟨z2, k2⟩ := q
  unfold dyVal at h
  simp only at h
  have h2k1 : ((2 : ℚ) ^ k1) ≠ 0 := by positivity
  have h2k2 : ((2 : ℚ) ^ k2) ≠ 0 := by positivity
  have hcrossQ : (z1 : ℚ) * 2 ^ k2 = (z2 : ℚ) * 2 ^ k1 := by
    field_simp at h
    linarith [h]
  have hcross : z1 * 2 ^ k2 = z2 * 2 ^ k1 := by exact_mod_cast hcrossQ
  rcases le_total k1 k2 with hle | hle
  · have hsplit : (2 : ℤ) ^ k2 = 2 ^ (k2 - k1) * 2 ^ k1 := by
      rw [← pow_add]
      congr 1
      omega
    have hz : z1 * 2 ^ (k2 - k1) = z2 := by
      have := hcross
      rw [hsplit] at this
      have h2k1Z : ((2 : ℤ) ^ k1) ≠ 0 := by positivity
      exact mul_right_cancel₀ h2k1Z (by linear_combination this)
    have hm := dyVal_inj_aux hle hq hz
    have hk : k1 = k2 := by omega
    subst hk
    simp only [hm, pow_zero, mul_one] at hz
    rw [hz]
  · have hsplit : (2 : ℤ) ^ k1 = 2 ^ (k1 - k2) * 2 ^ k2 := by
      rw [← pow_add]
      congr 1
      omega
    have hz : z2 * 2 ^ (k1 - k2) = z1 := by
      have := hcross.symm
      rw [hsplit] at this
      have h2k2Z : ((2 : ℤ) ^ k2) ≠ 0 := by positivity
      exact mul_right_cancel₀ h2k2Z (by linear_combination this)
    have hm := dyVal_inj_aux hle hp hz
    have hk : k1 = k2 := by omega
    subst hk
    simp only [hm, pow_zero, mul_one] at hz
    rw [hz]

namespace Dy

instance : Zero Dy := ⟨⟨(0, 0), Or.inr rfl⟩⟩
instance : One Dy := ⟨⟨(1, 0), Or.inr rfl⟩⟩

/-- The dyadic constant 2. -/
def two : Dy := ⟨(2, 0), Or.inr rfl⟩

def add (x y : Dy) : Dy := mkDy (x.1.1 * 2 ^ y.1.2 + y.1.1 * 2 ^ x.1.2) (x.1.2 + y.1.2)

def neg (x : Dy) : Dy :=
  ⟨(-x.1.1, x.1.2), by rcases x.2 with h | h; exact Or.inl (by omega); exact Or.inr h⟩

def mul (x y : Dy) : Dy := mkDy (x.1.1 * y.1.1) (x.1.2 + y.1.2)

instance : Add Dy := ⟨add⟩
instance : Neg Dy := ⟨neg⟩
instance : Mul Dy := ⟨mul⟩

/-- Value in ℚ; proof layer only. -/
def val (x : Dy) : ℚ := dyVal x.1

theorem val_injective {x y : Dy} (h : val x = val y) : x = y :=
  Subtype.ext (dyVal_inj x.2 y.2 h)

@[simp] theorem val_zero : val (0 : Dy) = 0 := by
  show ((0 : ℤ) : ℚ) / 2 ^ (0 : ℕ) = 0
  norm_num

@[simp] theorem val_one : val (1 : Dy) = 1 := by
  show ((1 : ℤ) : ℚ) / 2 ^ (0 : ℕ) = 1
  norm_num

@[simp] theorem val_two : val two = 2 := by
  show ((2 : ℤ) : ℚ) / 2 ^ (0 : ℕ) = 2
  norm_num

@[simp] theorem val_add (x y : Dy) : val (x + y) = val x + val y := by
  show val (add x y) = _
  unfold add mkDy val
  rw [dyNorm_val]
  unfold dyVal
  obtain ⟨⟨z1, k1⟩, h1⟩ := x
  obtain ⟨⟨z2, k2⟩, h2⟩ := y
  simp only
  push_cast
  have e1 : ((2 : ℚ) ^ k1) ≠ 0 := by positivity
  have e2 : ((2 : ℚ) ^ k2) ≠ 0 := by positivity
  rw [pow_add]
  field_simp
  try ring

@[simp] theorem val_neg (x : Dy) : val (-x) = -val x := by
  show val (neg x) = _
  unfold neg val dyVal
  obtain ⟨⟨z, k⟩, h⟩ := x
  push_cast
  try ring

@[simp] theorem val_mul (x y : Dy) : val (x * y) = val x * val y := by
  show val (mul x y) = _
  unfold mul mkDy val
  rw [dyNorm_val]
  unfold dyVal
  obtain ⟨⟨z1, k1⟩, h1⟩ := x
  obtain ⟨⟨z2, k2⟩, h2⟩ := y
  simp only
  push_cast
  rw [pow_add]
  have e1 : ((2 : ℚ) ^ k1) ≠ 0 := by positivity
  have e2 : ((2 : ℚ) ^ k2) ≠ 0 := by positivity
  field_simp

instance : CommRing Dy where
  nsmul := nsmulRec
  zsmul := zsmulRec
  add_assoc x y z := by apply val_injective; simp; ring
  zero_add x := by apply val_injective; simp
  add_zero x := by apply val_injective; simp
  add_comm x y := by apply val_injective; simp; ring
  neg_add_cancel x := by apply val_injective; simp
  mul_assoc x y z := by apply val_injective; simp; ring
  one_mul x := by apply val_injective; simp
  mul_one x := by apply val_injective; simp
  left_distrib x y z := by apply val_injective; simp; ring
  right_distrib x y z := by apply val_injective; simp; ring
  zero_mul x := by apply val_injective; simp
  mul_zero x := by apply val_injective; simp
  mul_comm x y := by apply val_injective; simp; ring

@[simp] theorem val_pow (x : Dy) (k : ℕ) : val (x ^ k) = val x ^ k := by
  induction k with
  | zero => simp [pow_zero]
  | succ k ih => rw [pow_succ, val_mul, ih, pow_succ]

@[simp] theorem val_sub (x y : Dy) : val (x - y) = val x - val y := by
  rw [sub_eq_add_neg, val_add, val_neg, sub_eq_add_neg]

/-- The explicit constant and the ring numeral agree. -/
theorem two_eq_ofNat : two = (2 : Dy) := by
  apply val_injective
  rw [show (2 : Dy) = 1 + 1 from by norm_num]
  rw [val_add, val_one, val_two]
  norm_num

/-- Executable order test on dyadics. -/
def ble (x y : Dy) : Bool := decide (x.1.1 * 2 ^ y.1.2 ≤ y.1.1 * 2 ^ x.1.2)

theorem ble_iff (x y : Dy) : ble x y = true ↔ val x ≤ val y := by
  unfold ble val dyVal
  rw [decide_eq_true_eq]
  obtain ⟨⟨z1, k1⟩, h1⟩ := x
  obtain ⟨⟨z2, k2⟩, h2⟩ := y
  simp only
  rw [div_le_div_iff (by positivity) (by positivity)]
  constructor
  · intro h; exact_mod_cast h
  · intro h; exact_mod_cast h

/-- One half, the basic dyadic constant. -/
def half : Dy := ⟨(1, 1), Or.inl (by decide)⟩

@[simp] theorem val_half : val half = 1 / 2 := by
  unfold half val dyVal
  norm_num

end Dy

/-- An element `a + b·ω + c·ω² + d·ω³` of ℚ[ω], ω = exp(iπ/4), with ω⁴ = −1.
Note ω² = i and ω − ω³ = √2. -/
@[ext]
structure Cyc8 where
  a : Dy
  b : Dy
  c : Dy
  d : Dy
  deriving DecidableEq

namespace Cyc8

def add (x y : Cyc8) : Cyc8 := ⟨x.a + y.a, x.b + y.b, x.c + y.c, x.d + y.d⟩

def neg (x : Cyc8) : Cyc8 := ⟨-x.a, -x.b, -x.c, -x.d⟩

def mul (x y : Cyc8) : Cyc8 :=
  ⟨x.a * y.a - x.b * y.d - x.c * y.c - x.d * y.b,
   x.a * y.b + x.b * y.a - x.c * y.d - x.d * y.c,
   x.a * y.c + x.b * y.b + x.c * y.a - x.d * y.d,
   x.a * y.d + x.b * y.c + x.c * y.b + x.d * y.a⟩

instance : Zero Cyc8 := ⟨⟨0, 0, 0, 0⟩⟩
instance : One Cyc8 := ⟨⟨1, 0, 0, 0⟩⟩
instance : Add Cyc8 := ⟨add⟩
instance : Neg Cyc8 := ⟨neg⟩
instance : Mul Cyc8 := ⟨mul⟩

@[simp] theorem zero_a : (0 : Cyc8).a = 0 := rfl
@[simp] theorem zero_b : (0 : Cyc8).b = 0 := rfl
@[simp] theorem zero_c : (0 : Cyc8).c = 0 := rfl
@[simp] theorem zero_d : (0 : Cyc8).d = 0 := rfl
@[simp] theorem one_a : (1 : Cyc8).a = 1 := rfl
@[simp] theorem one_b : (1 : Cyc8).b = 0 := rfl
@[simp] theorem one_c : (1 : Cyc8).c = 0 := rfl
@[simp] theorem one_d : (1 : Cyc8).d = 0 := rfl
@[simp] theorem add_a (x y : Cyc8) : (x + y).a = x.a + y.a := rfl
@[simp] theorem add_b (x y : Cyc8) : (x + y).b = x.b + y.b := rfl
@[simp] theorem add_c (x y : Cyc8) : (x + y).c = x.c + y.c := rfl
@[simp] theorem add_d (x y : Cyc8) : (x + y).d = x.d + y.d := rfl
@[simp] theorem neg_a (x : Cyc8) : (-x).a = -x.a := rfl
@[simp] theorem neg_b (x : Cyc8) : (-x).b = -x.b := rfl
@[simp] theorem neg_c (x : Cyc8) : (-x).c = -x.c := rfl
@[simp] theorem neg_d (x : Cyc8) : (-x).d = -x.d := rfl
@[simp] theorem mul_a (x y : Cyc8) :
    (x * y).a = x.a * y.a - x.b * y.d - x.c * y.c - x.d * y.b := rfl
@[simp] theorem mul_b (x y : Cyc8) :
    (x * y).b = x.a * y.b + x.b * y.a - x.c * y.d - x.d * y.c := rfl
@[simp] theorem mul_c (x y : Cyc8) :
    (x * y).c = x.a * y.c + x.b * y.b + x.c * y.a - x.d * y.d := rfl
@[simp] theorem mul_d (x y : Cyc8) :
    (x * y).d = x.a * y.d + x.b * y.c + x.c * y.b + x.d * y.a := rfl

instance : CommRing Cyc8 where
  nsmul := nsmulRec
  zsmul := zsmulRec
  add_assoc x y z := by ext <;> simp <;> ring
  zero_add x := by ext <;> simp
  add_zero x := by ext <;> simp
  add_comm x y := by ext <;> simp <;> ring
  neg_add_cancel x := by ext <;> simp
  mul_assoc x y z := by ext <;> simp <;> ring
  one_mul x := by ext <;> simp
  mul_one x := by ext <;> simp
  left_distrib x y z := by ext <;> simp <;> ring
  right_distrib x y z := by ext <;> simp <;> ring
  zero_mul x := by ext <;> simp
  mul_zero x := by ext <;> simp
  mul_comm x y := by ext <;> simp <;> ring

/-- Complex conjugation on ℚ[ω]: ω ↦ ω⁻¹ = −ω³. -/
def conj (x : Cyc8) : Cyc8 := ⟨x.a, -x.d, -x.c, -x.b⟩

@[simp] theorem conj_a (x : Cyc8) : x.conj.a = x.a := rfl
@[simp] theorem conj_b (x : Cyc8) : x.conj.b = -x.d := rfl
@[simp] theorem conj_c (x : Cyc8) : x.conj.c = -x.c := rfl
@[simp] theorem conj_d (x : Cyc8) : x.conj.d = -x.b := rfl

@[simp] theorem conj_zero : (0 : Cyc8).conj = 0 := by ext <;> simp
@[simp] theorem conj_one : (1 : Cyc8).conj = 1 := by ext <;> simp
theorem conj_add (x y : Cyc8) : (x + y).conj = x.conj + y.conj := by ext <;> simp <;> ring
theorem conj_mul (x y : Cyc8) : (x * y).conj = x.conj * y.conj := by ext <;> simp <;> ring

end Cyc8

/-- An element `a + b·√2` of ℚ[√2]; carries squared norms and probabilities. -/
@[ext]
structure Real2 where
  a : Dy
  b : Dy
  deriving DecidableEq

namespace Real2

def add (x y : Real2) : Real2 := ⟨x.a + y.a, x.b + y.b⟩

def neg (x : Real2) : Real2 := ⟨-x.a, -x.b⟩

def mul (x y : Real2) : Real2 := ⟨x.a * y.a + Dy.two * x.b * y.b, x.a * y.b + x.b * y.a⟩

instance : Zero Real2 := ⟨⟨0, 0⟩⟩
instance : One Real2 := ⟨⟨1, 0⟩⟩
instance : Add Real2 := ⟨add⟩
instance : Neg Real2 := ⟨neg⟩
instance : Mul Real2 := ⟨mul⟩

@[simp] theorem zero_ar : (0 : Real2).a = 0 := rfl
@[simp] theorem zero_br : (0 : Real2).b = 0 := rfl
@[simp] theorem one_ar : (1 : Real2).a = 1 := rfl
@[simp] theorem one_br : (1 : Real2).b = 0 := rfl
@[simp] theorem add_ar (x y : Real2) : (x + y).a = x.a + y.a := rfl
@[simp] theorem add_br (x y : Real2) : (x + y).b = x.b + y.b := rfl
@[simp] theorem neg_ar (x : Real2) : (-x).a = -x.a := rfl
@[simp] theorem neg_br (x : Real2) : (-x).b = -x.b := rfl
@[simp] theorem mul_ar (x y : Real2) : (x * y).a = x.a * y.a + Dy.two * x.b * y.b := rfl
@[simp] theorem mul_br (x y : Real2) : (x * y).b = x.a * y.b + x.b * y.a := rfl

instance : CommRing Real2 where
  nsmul := nsmulRec
  zsmul := zsmulRec
  add_assoc x y z := by ext <;> simp [Dy.two_eq_ofNat] <;> ring
  zero_add x := by ext <;> simp [Dy.two_eq_ofNat]
  add_zero x := by ext <;> simp [Dy.two_eq_ofNat]
  add_comm x y := by ext <;> simp [Dy.two_eq_ofNat] <;> ring
  neg_add_cancel x := by ext <;> simp [Dy.two_eq_ofNat]
  mul_assoc x y z := by ext <;> simp [Dy.two_eq_ofNat] <;> ring
  one_mul x := by ext <;> simp [Dy.two_eq_ofNat]
  mul_one x := by ext <;> simp [Dy.two_eq_ofNat]
  left_distrib x y z := by ext <;> simp [Dy.two_eq_ofNat] <;> ring
  right_distrib x y z := by ext <;> simp [Dy.two_eq_ofNat] <;> ring
  zero_mul x := by ext <;> simp [Dy.two_eq_ofNat]
  mul_zero x := by ext <;> simp [Dy.two_eq_ofNat]
  mul_comm x y := by ext <;> simp [Dy.two_eq_ofNat] <;> ring

/-- Interpretation of ℚ[√2] in the reals; proof-layer only. -/
noncomputable def toR (x : Real2) : ℝ := (x.a.val : ℝ) + (x.b.val : ℝ) * Real.sqrt 2

theorem toR_zero : toR 0 = 0 := by simp [toR]
theorem toR_one : toR 1 = 1 := by simp [toR]
theorem toR_add (x y : Real2) : toR (x + y) = toR x + toR y := by
  simp [toR]; push_cast; ring
theorem toR_neg (x : Real2) : toR (-x) = -toR x := by
  simp [toR]; ring
theorem toR_mul (x y : Real2) : toR (x * y) = toR x * toR y := by
  have h2 : Real.sqrt 2 * Real.sqrt 2 = 2 := Real.mul_self_sqrt (by norm_num)
  simp only [toR, mul_ar, mul_br, Dy.val_add, Dy.val_mul, Dy.val_two]
  push_cast
  linear_combination (-(x.b.val : ℝ) * (y.b.val : ℝ)) * h2

theorem toR_eq_zero_iff (x : Real2) : toR x = 0 ↔ x = 0 := by
  constructor
  · intro h
    by_cases hb : x.b.val = 0
    · have hav : (x.a.val : ℝ) = 0 := by simpa [toR, hb] using h
      have ha : x.a.val = 0 := by exact_mod_cast hav
      ext
      · exact Dy.val_injective (by simp [ha])
      · exact Dy.val_injective (by simp [hb])
    · exfalso
      have hbR : (x.b.val : ℝ) ≠ 0 := by exact_mod_cast hb
      have h' : (x.a.val : ℝ) + (x.b.val : ℝ) * Real.sqrt 2 = 0 := h
      have hs : Real.sqrt 2 = ((-x.a.val / x.b.val : ℚ) : ℝ) := by
        push_cast
        rw [eq_div_iff hbR]
        linarith [h']
      exact irrational_sqrt_two ⟨-x.a.val / x.b.val, hs.symm⟩
  · intro h; simp [h, toR_zero]

/-- Executable nonnegativity test for `a + b√2`. -/
def bnonneg (x : Real2) : Bool :=
  if Dy.ble 0 x.a then
    if Dy.ble 0 x.b then true
    else Dy.ble (Dy.two * x.b ^ 2) (x.a ^ 2)
  else
    if Dy.ble 0 x.b then Dy.ble (x.a ^ 2) (Dy.two * x.b ^ 2)
    else false

theorem bnonneg_iff (x : Real2) : bnonneg x = true ↔ 0 ≤ toR x := by
  have h2 : Real.sqrt 2 * Real.sqrt 2 = 2 := Real.mul_self_sqrt (by norm_num)
  have hs : 0 ≤ Real.sqrt 2 := Real.sqrt_nonneg 2
  obtain ⟨a, b⟩ := x
  simp only [bnonneg, toR]
  split_ifs with ha hb hb
  · rw [Dy.ble_iff] at ha hb
    simp only [Dy.val_zero] at ha hb
    simp only [true_iff]
    have haR : (0 : ℝ) ≤ (a.val : ℝ) := by exact_mod_cast ha
    have hbR : (0 : ℝ) ≤ (b.val : ℝ) := by exact_mod_cast hb
    positivity
  · rw [Dy.ble_iff] at ha
    rw [Dy.ble_iff]
    simp only [Dy.val_zero] at ha
    have hbq : ¬ (0 : ℚ) ≤ b.val := by
      intro hcon
      exact hb ((Dy.ble_iff 0 b).mpr (by simpa using hcon))
    simp only [Dy.val_mul, Dy.val_pow, Dy.val_two]
    have haR : (0 : ℝ) ≤ (a.val : ℝ) := by exact_mod_cast ha
    have hbR : (b.val : ℝ) < 0 := by exact_mod_cast (not_le.mp hbq)
    have k1 : 0 ≤ -((b.val : ℝ) * Real.sqrt 2) := by
      nlinarith [mul_nonneg (by linarith : (0:ℝ) ≤ -(b.val:ℝ)) hs]
    have k2 : 0 ≤ (a.val : ℝ) - (b.val : ℝ) * Real.sqrt 2 := by linarith
    constructor
    · intro hq
      have hqR : 2 * (b.val : ℝ) ^ 2 ≤ (a.val : ℝ) ^ 2 := by exact_mod_cast hq
      by_contra hcon
      push_neg at hcon
      have k3 : 0 < ((a.val : ℝ) - (b.val : ℝ) * Real.sqrt 2) *
          (-((a.val : ℝ) + (b.val : ℝ) * Real.sqrt 2)) := by
        apply mul_pos _ (by linarith)
        nlinarith [hqR, h2]
      nlinarith [h2, k3, hqR]
    · intro hr
      have k3 : 0 ≤ ((a.val : ℝ) + (b.val : ℝ) * Real.sqrt 2) *
          ((a.val : ℝ) - (b.val : ℝ) * Real.sqrt 2) := mul_nonneg hr k2
      have : 2 * (b.val : ℝ) ^ 2 ≤ (a.val : ℝ) ^ 2 := by nlinarith [h2, k3]
      exact_mod_cast this
  · rw [Dy.ble_iff] at hb
    rw [Dy.ble_iff]
    simp only [Dy.val_zero] at hb
    have haq : ¬ (0 : ℚ) ≤ a.val := by
      intro hcon
      exact ha ((Dy.ble_iff 0 a).mpr (by simpa using hcon))
    simp only [Dy.val_mul, Dy.val_pow, Dy.val_two]
    have haR : (a.val : ℝ) < 0 := by exact_mod_cast (not_le.mp haq)
    have hbR : (0 : ℝ) ≤ (b.val : ℝ) := by exact_mod_cast hb
    have k1 : 0 ≤ (b.val : ℝ) * Real.sqrt 2 := mul_nonneg hbR hs
    have k2 : 0 < (b.val : ℝ) * Real.sqrt 2 - (a.val : ℝ) := by linarith
    constructor
    · intro hq
      have hqR : (a.val : ℝ) ^ 2 ≤ 2 * (b.val : ℝ) ^ 2 := by exact_mod_cast hq
      by_contra hcon
      push_neg at hcon
      have k3 : 0 < (-((a.val : ℝ) + (b.val : ℝ) * Real.sqrt 2)) *
          ((b.val : ℝ) * Real.sqrt 2 - (a.val : ℝ)) := mul_pos (by linarith) k2
      nlinarith [h2, k3, hqR]
    · intro hr
      have k3 : 0 ≤ ((a.val : ℝ) + (b.val : ℝ) * Real.sqrt 2) *
          ((b.val : ℝ) * Real.sqrt 2 - (a.val : ℝ)) := mul_nonneg hr (le_of_lt k2)
      have : (a.val : ℝ) ^ 2 ≤ 2 * (b.val : ℝ) ^ 2 := by nlinarith [h2, k3]
      exact_mod_cast this
  · have haq : ¬ (0 : ℚ) ≤ a.val := by
      intro hcon
      exact ha ((Dy.ble_iff 0 a).mpr (by simpa using hcon))
    have hbq : ¬ (0 : ℚ) ≤ b.val := by
      intro hcon
      exact hb ((Dy.ble_iff 0 b).mpr (by simpa using hcon))
    simp only [false_iff, not_le]
    have haR : (a.val : ℝ) < 0 := by exact_mod_cast (not_le.mp haq)
    have hbR : (b.val : ℝ) < 0 := by exact_mod_cast (not_le.mp hbq)
    nlinarith [h2, hs]

/-- Executable strict-order test: `x < y` in ℚ[√2]. -/
def blt (x y : Real2) : Bool := bnonneg (y + -x) && decide (x ≠ y)

/-- Executable order test: `x ≤ y` in ℚ[√2]. -/
def ble (x y : Real2) : Bool := bnonneg (y + -x)

theorem ble_iffR (x y : Real2) : ble x y = true ↔ toR x ≤ toR y := by
  unfold ble
  rw [bnonneg_iff, toR_add, toR_neg]
  constructor <;> intro h <;> linarith

theorem blt_iff (x y : Real2) : blt x y = true ↔ toR x < toR y := by
  unfold blt
  rw [Bool.and_eq_true, bnonneg_iff, toR_add, toR_neg, decide_eq_true_eq]
  constructor
  · rintro ⟨h1, h2⟩
    rcases lt_or_eq_of_le (by linarith : toR x ≤ toR y) with h | h
    · exact h
    · exfalso
      have hz : toR (y + -x) = 0 := by rw [toR_add, toR_neg]; linarith
      have hz' := (toR_eq_zero_iff _).mp hz
      apply h2
      have hyx : y = x := by
        have h3 : y - x = 0 := by rwa [sub_eq_add_neg]
        exact sub_eq_zero.mp h3
      exact hyx.symm
  · intro h
    refine ⟨by linarith, ?_⟩
    intro he
    rw [he] at h
    exact lt_irrefl _ h

end Real2

/-- The embedding ℚ[√2] → ℚ[ω] via √2 = ω − ω³. -/
def Real2.toCyc8 (x : Real2) : Cyc8 := ⟨x.a, x.b, 0, -x.b⟩

theorem Real2.toCyc8_zero : (0 : Real2).toCyc8 = 0 := by ext <;> simp [Real2.toCyc8]
theorem Real2.toCyc8_one : (1 : Real2).toCyc8 = 1 := by ext <;> simp [Real2.toCyc8]
theorem Real2.toCyc8_add (x y : Real2) : (x + y).toCyc8 = x.toCyc8 + y.toCyc8 := by
  ext <;> simp [Real2.toCyc8] <;> ring
theorem Real2.toCyc8_mul (x y : Real2) : (x * y).toCyc8 = x.toCyc8 * y.toCyc8 := by
  ext <;> simp [Real2.toCyc8, Dy.two_eq_ofNat] <;> ring

theorem Real2.toCyc8_inj {x y : Real2} (h : x.toCyc8 = y.toCyc8) : x = y := by
  ext
  · exact congrArg Cyc8.a h
  · exact congrArg Cyc8.b h

/-- Squared magnitude |z|² of z ∈ ℚ[ω], landing in ℚ[√2]. -/
def Cyc8.abs2 (z : Cyc8) : Real2 :=
  ⟨z.a ^ 2 + z.b ^ 2 + z.c ^ 2 + z.d ^ 2,
   z.a * z.b - z.a * z.d + z.b * z.c + z.c * z.d⟩

theorem Cyc8.conj_mul_self (z : Cyc8) : z.conj * z = z.abs2.toCyc8 := by
  ext <;> simp [Cyc8.abs2, Real2.toCyc8] <;> ring

@[simp] theorem Cyc8.abs2_zero : (0 : Cyc8).abs2 = 0 := by
  ext <;> simp [Cyc8.abs2]

@[simp] theorem Cyc8.abs2_one : (1 : Cyc8).abs2 = 1 := by
  ext <;> simp [Cyc8.abs2]

theorem Cyc8.abs2_toR_eq (z : Cyc8) :
    Real2.toR z.abs2 =
      ((z.a.val : ℝ) + ((z.b.val : ℝ) - (z.d.val : ℝ)) * Real.sqrt 2 / 2) ^ 2 +
      ((z.c.val : ℝ) + ((z.b.val : ℝ) + (z.d.val : ℝ)) * Real.sqrt 2 / 2) ^ 2 := by
  have h2 : Real.sqrt 2 ^ 2 = 2 := Real.sq_sqrt (by norm_num)
  obtain ⟨a, b, c, d⟩ := z
  simp only [Cyc8.abs2, Real2.toR, Dy.val_add, Dy.val_mul, Dy.val_sub, Dy.val_pow]
  push_cast
  linear_combination
    (-((((b.val : ℝ) - d.val) ^ 2 + ((b.val : ℝ) + d.val) ^ 2) / 4)) * h2

theorem Cyc8.abs2_nonneg (z : Cyc8) : 0 ≤ Real2.toR z.abs2 := by
  rw [Cyc8.abs2_toR_eq]
  positivity

/-- Basis-state label: one bit per qubit; qubit 0 is the least-significant bit
in the statevector enumeration. -/
abbrev Asgn (n : ℕ) := Fin n → Bool

/-- An (unnormalized) n-qubit vector with amplitudes in ℚ[ω]. -/
abbrev QVec (n : ℕ) := Asgn n → Cyc8

/-- Hermitian inner product `⟨v|w⟩ = Σ_f conj(v f) · w f` (antilinear on the left). -/
def innerVec {n : ℕ} (v w : QVec n) : Cyc8 := ∑ f : Asgn n, (v f).conj * w f

/-- A 2×2 matrix over ℚ[ω]; `M r c` is the entry at row r, column c, `false` = |0⟩. -/
def Mat2 : Type := Bool → Bool → Cyc8

def mkM (m00 m01 m10 m11 : Cyc8) : Mat2 := fun r c =>
  match r, c with
  | false, false => m00
  | false, true => m01
  | true, false => m10
  | true, true => m11

/-- Action of a single-qubit gate with matrix M on qubit q of an n-qubit vector. -/
def apply1 {n : ℕ} (M : Mat2) (q : Fin n) (v : QVec n) : QVec n := fun f =>
  M (f q) false * v (Function.update f q false) +
  M (f q) true * v (Function.update f q true)

/-- 1/√2 = (ω − ω³)/2 in ℚ[ω]. -/
def rt2inv : Cyc8 := ⟨0, Dy.half, 0, -Dy.half⟩

/-- The imaginary unit i = ω². -/
def imagU : Cyc8 := ⟨0, 0, 1, 0⟩

/-- ω = exp(iπ/4). -/
def omg : Cyc8 := ⟨0, 1, 0, 0⟩

/-- ω⁻¹ = exp(−iπ/4) = −ω³. -/
def omgInv : Cyc8 := ⟨0, 0, 0, -1⟩

/-- Modelled from the spec: the gate set of §6 as the standard unitaries
(the Rust gate implementation is not under src/).  H = (1/√2)[[1,1],[1,−1]]. -/
def MH : Mat2 := mkM rt2inv rt2inv rt2inv (-rt2inv)

def MX : Mat2 := mkM 0 1 1 0

def MY : Mat2 := mkM 0 (-imagU) imagU 0

def MZ : Mat2 := mkM 1 0 0 (-1)

def MS : Mat2 := mkM 1 0 0 imagU

def MSDG : Mat2 := mkM 1 0 0 (-imagU)

/-- √X = (1/2)[[1+i, 1−i],[1−i, 1+i]]. -/
def MSX : Mat2 :=
  mkM ⟨Dy.half, 0, Dy.half, 0⟩ ⟨Dy.half, 0, -Dy.half, 0⟩
    ⟨Dy.half, 0, -Dy.half, 0⟩ ⟨Dy.half, 0, Dy.half, 0⟩

def MSXDG : Mat2 :=
  mkM ⟨Dy.half, 0, -Dy.half, 0⟩ ⟨Dy.half, 0, Dy.half, 0⟩
    ⟨Dy.half, 0, Dy.half, 0⟩ ⟨Dy.half, 0, -Dy.half, 0⟩

/-- T = diag(1, exp(iπ/4)) (spec §4.4). -/
def MT : Mat2 := mkM 1 0 0 omg

def MTDG : Mat2 := mkM 1 0 0 omgInv

def MI : Mat2 := mkM 1 0 0 1

/-- CX(c,t) on basis states: flips bit t when bit c is set. -/
def applyCX {n : ℕ} (c t : Fin n) (v : QVec n) : QVec n := fun f =>
  v (Function.update f t (xor (f c) (f t)))

/-- CZ(a,b): phase −1 on basis states with both bits set. -/
def applyCZ {n : ℕ} (a b : Fin n) (v : QVec n) : QVec n := fun f =>
  (if f a && f b then -1 else 1) * v f

/-- SWAP(a,b): permutes the two bit positions. -/
def applySWAP {n : ℕ} (a b : Fin n) (v : QVec n) : QVec n := fun f =>
  v (f ∘ Equiv.swap a b)

/-- The term list of a stabilizer sum: ordered (coefficient, term-vector) pairs
(spec §3: "An ordered … collection of stabilizer states {(Tₖ, cₖ)}"). -/
abbrev Terms (n : ℕ) := List (Cyc8 × QVec n)

/-- Amplitude of the represented (pre-denominator) sum at basis state f. -/
def sumAmp {n : ℕ} (ts : Terms n) (f : Asgn n) : Cyc8 :=
  (ts.map (fun cv => cv.1 * cv.2 f)).sum

/-- The summed state vector Σ cₖ ψₖ of a term list. -/
def sumVec {n : ℕ} (ts : Terms n) : QVec n := fun f => sumAmp ts f

/-- Raw squared norm Σ_f |Σₖ cₖ ψₖ(f)|², a value in ℚ[√2]. -/
def rawNormSq {n : ℕ} (ts : Terms n) : Real2 := ∑ f : Asgn n, (sumAmp ts f).abs2

/-- Apply a linear vector operation to every term, coefficients unchanged
(spec §4.3: "Clifford gate: apply in place to every tableau term"). -/
def mapTerms {n : ℕ} (G : QVec n → QVec n) (ts : Terms n) : Terms n :=
  ts.map (fun cv => (cv.1, G cv.2))

/-- Modelled from the spec (§4.4, T-gate injection; the Rust injector is not
under src/): each term (c, ψ) is replaced by the pair (a·c, ψ), (b·c, Z_q ψ) in
order.  The spec's own identity T = diag(1, e^{iπ/4}) forces the b-term
operator to be Z_q (then a·I + b·Z_q = T exactly, with a = (1+e^{iπ/4})/2,
b = (1−e^{iπ/4})/2); the spec's aside naming "S_q followed by Z_q" is
inconsistent with that identity and with the statevector test in
src/tests/test_state_initialization.py, which this model reproduces. -/
def injectT {n : ℕ} (aa bb : Cyc8) (q : Fin n) : Terms n → Terms n
  | [] => []
  | cv :: rest => (aa * cv.1, cv.2) :: (bb * cv.1, apply1 MZ q cv.2) :: injectT aa bb q rest

/-- a = (1 + ω)/2 for the T gate. -/
def aT : Cyc8 := ⟨Dy.half, Dy.half, 0, 0⟩

/-- b = (1 − ω)/2 for the T gate. -/
def bT : Cyc8 := ⟨Dy.half, -Dy.half, 0, 0⟩

/-- a = (1 + ω⁻¹)/2 for the TDG gate. -/
def aTdg : Cyc8 := ⟨Dy.half, 0, 0, -Dy.half⟩

/-- b = (1 − ω⁻¹)/2 for the TDG gate. -/
def bTdg : Cyc8 := ⟨Dy.half, 0, 0, Dy.half⟩

/-- Error kinds of the spec's §7 error surface. -/
inductive Err where
  | value : Err
  | overflow : Err
  deriving DecidableEq

/-- A named gate with its operand qubit indices (spec §3 "Circuit"). -/
structure QuantumGate where
  name : String
  qubits : List ℕ
  deriving DecidableEq

/-- An ordered sequence of named gates over `num_qubits` qubits. -/
structure QuantumCircuit where
  num_qubits : ℕ
  gates : List QuantumGate
  deriving DecidableEq

/-- Number of operands required by each canonical gate name; `none` = unknown gate. -/
def gateArity (name : String) : Option ℕ :=
  if name ∈ ["H", "X", "Y", "Z", "S", "SDG", "SX", "SXDG", "T", "TDG"] then some 1
  else if name ∈ ["CX", "CZ", "SWAP"] then some 2
  else none

/-- Modelled from the spec (§6; the Rust gate-builder is not under src/): gate
names are case-folded to uppercase; unknown names or wrong operand counts are
value errors; qubit range is NOT checked here (the tests build T(3) on a
2-qubit circuit successfully and only `from_circuit` rejects it). -/
def QuantumCircuit.apply_gate (c : QuantumCircuit) (name : String) (qs : List ℕ) :
    Except Err QuantumCircuit :=
  let u := name.toUpper
  match gateArity u with
  | none => .error .value
  | some k =>
      if qs.length = k then .ok ⟨c.num_qubits, c.gates ++ [⟨u, qs⟩]⟩ else .error .value

def single1 (n : ℕ) (M : Mat2) (qs : List ℕ) (ts : Terms n) : Except Err (Terms n) :=
  match qs with
  | [q] => if h : q < n then .ok (mapTerms (apply1 M ⟨q, h⟩) ts) else .error .value
  | _ => .error .value

def tinj (n : ℕ) (aa bb : Cyc8) (qs : List ℕ) (ts : Terms n) : Except Err (Terms n) :=
  match qs with
  | [q] => if h : q < n then .ok (injectT aa bb ⟨q, h⟩ ts) else .error .value
  | _ => .error .value

def twoQ (n : ℕ) (op : Fin n → Fin n → QVec n → QVec n) (qs : List ℕ) (ts : Terms n) :
    Except Err (Terms n) :=
  match qs with
  | [q1, q2] =>
      if h : q1 < n ∧ q2 < n ∧ q1 ≠ q2 then
        .ok (mapTerms (op ⟨q1, h.1⟩ ⟨q2, h.2.1⟩) ts)
      else .error .value
  | _ => .error .value

/-- Modelled from the spec (§4.3; the Rust engine is not under src/): fold one
gate into the term list.  Clifford gates act on every term; T-type gates invoke
the rank-doubling injector; operand indices out of range (or a repeated operand
on a two-qubit gate, §7 "duplicate qubits in a list requiring uniqueness") are
value errors. -/
def applyGateTerms (n : ℕ) (g : QuantumGate) (ts : Terms n) : Except Err (Terms n) :=
  if g.name = "H" then single1 n MH g.qubits ts
  else if g.name = "X" then single1 n MX g.qubits ts
  else if g.name = "Y" then single1 n MY g.qubits ts
  else if g.name = "Z" then single1 n MZ g.qubits ts
  else if g.name = "S" then single1 n MS g.qubits ts
  else if g.name = "SDG" then single1 n MSDG g.qubits ts
  else if g.name = "SX" then single1 n MSX g.qubits ts
  else if g.name = "SXDG" then single1 n MSXDG g.qubits ts
  else if g.name = "T" then tinj n aT bT g.qubits ts
  else if g.name = "TDG" then tinj n aTdg bTdg g.qubits ts
  else if g.name = "CX" then twoQ n applyCX g.qubits ts
  else if g.name = "CZ" then twoQ n applyCZ g.qubits ts
  else if g.name = "SWAP" then twoQ n applySWAP g.qubits ts
  else .error .value

def fromCircuitAux (n : ℕ) : List QuantumGate → Terms n → Except Err (Terms n)
  | [], ts => .ok ts
  | g :: gs, ts => (applyGateTerms n g ts).bind (fromCircuitAux n gs)

/-- The all-zero basis vector |0…0⟩. -/
def e0 {n : ℕ} : QVec n := fun f => if f = fun _ => false then 1 else 0

/-- Modelled from the spec (§3/§4.3; the Rust stabilizer-sum state is not under
src/): a stabilizer sum held as its ordered term list plus a formal positive
denominator `denom ∈ ℚ[√2]`; the represented vector is (Σ cₖψₖ)/√denom, so
renormalization stays inside exact arithmetic. -/
structure QuantumState where
  num_qubits : ℕ
  terms : Terms num_qubits
  denom : Real2

/-- Modelled from the spec (§4.3 Construction; the Rust `State::from_circuit`
is not under src/): start from the single term (1, |0…0⟩) with denominator 1
and fold each gate in order; no renormalization is applied. -/
def QuantumState.from_circuit (c : QuantumCircuit) : Except Err QuantumState :=
  (fromCircuitAux c.num_qubits c.gates [(1, e0)]).map
    (fun ts => ⟨c.num_qubits, ts, 1⟩)

/-- The stabilizer rank is the number of terms (spec §3). -/
def QuantumState.stabilizer_rank (s : QuantumState) : ℕ := s.terms.length

/-- Whether a gate is T-type (spec glossary). -/
def isTType (g : QuantumGate) : Bool := g.name == "T" || g.name == "TDG"

/-- Number of T-type gates (T or TDG) in a gate list. -/
def countTType (gs : List QuantumGate) : ℕ := (gs.filter isTType).length

/-- All 2ⁿ basis assignments in lexicographic order with qubit 0 as the least
significant bit: entry i maps qubit q to bit q of i. -/
def enumAsgn : (n : ℕ) → List (Asgn n)
  | 0 => [fun i => i.elim0]
  | n + 1 => (enumAsgn n).flatMap (fun g => [Fin.cons false g, Fin.cons true g])

/-- Modelled from the spec (§4.6; the Rust materializer is not under src/):
the 2ⁿ amplitudes, qubit 0 least significant, as exact values paired with the
formal denominator: the float vector of the source is `entry / √denom`. -/
def QuantumState.to_statevector (s : QuantumState) : List Cyc8 × Real2 :=
  ((enumAsgn s.num_qubits).map (sumVec s.terms), s.denom)

/-- Squared norm ⟨Ψ|Ψ⟩ of the represented state as a (numerator, denominator)
pair: the represented value is `rawNormSq/denom` and `norm()` is its square
root (spec §4.3). -/
def QuantumState.norm_sq (s : QuantumState) : Real2 × Real2 :=
  (rawNormSq s.terms, s.denom)

/-- Projector (I ± Z_q)/2 on a vector: keeps amplitudes whose bit q equals
`bit`, zeroes the rest. -/
def projV {n : ℕ} (q : Fin n) (bit : Bool) (v : QVec n) : QVec n := fun f =>
  if f q = bit then v f else 0

def projTerms {n : ℕ} (q : Fin n) (bit : Bool) (ts : Terms n) : Terms n :=
  mapTerms (projV q bit) ts

/-- Modelled from the spec (§4.5 `project_normalized`; the Rust routine is not
under src/): project every term by (I + (−1)^bit Z_q)/2, then rescale to unit
norm — here by setting the formal denominator to the post-projection raw
squared norm.  Probability-0 outcomes and out-of-range qubits are value
errors. -/
def QuantumState.project_normalized (s : QuantumState) (q : ℕ) (bit : Bool) :
    Except Err QuantumState :=
  if h : q < s.num_qubits then
    if rawNormSq (projTerms ⟨q, h⟩ bit s.terms) = 0 then .error .value
    else .ok ⟨s.num_qubits, projTerms ⟨q, h⟩ bit s.terms,
      rawNormSq (projTerms ⟨q, h⟩ bit s.terms)⟩
  else .error .value

/-- One measurement step on qubit q (spec §4.5): the outcome is 1 with
probability p₁ = ⟨Ψ|(I−Z_q)/2|Ψ⟩ / ⟨Ψ|Ψ⟩; with `u` the uniform draw in [0,1),
the weighted draw is `u < p₁`, evaluated denominator-free as `u·N < N₁`.
The state is projected without the final rescale. -/
def measureStep {n : ℕ} (q : Fin n) (u : Dy) (ts : Terms n) : Bool × Terms n :=
  let N := rawNormSq ts
  let Nt := rawNormSq (projTerms q true ts)
  let b := Real2.blt (⟨u, 0⟩ * N) Nt
  (b, projTerms q b ts)

def measureGo {n : ℕ} : List (Fin n) → (ℕ → Dy) → Terms n → List Bool × Terms n
  | [], _, ts => ([], ts)
  | q :: qs, us, ts =>
    let r1 := measureStep q (us 0) ts
    let r2 := measureGo qs (fun i => us (i + 1)) r1.2
    (r1.1 :: r2.1, r2.2)

/-- Modelled from the spec (§4.5 `measure`; the Rust routine is not under
src/): validate (duplicates and out-of-range indices are value errors; the
empty list is allowed and is a no-op), process the qubits in order, then
rescale so ⟨Ψ|Ψ⟩ = 1.  The seeded PRNG is modelled by the stream `us` of
uniform draws in [0,1) it produces. -/
def QuantumState.measure (s : QuantumState) (qubits : List ℕ) (us : ℕ → Dy) :
    Except Err (List Bool × QuantumState) :=
  if h : qubits.Nodup ∧ ∀ q ∈ qubits, q < s.num_qubits then
    match qubits, h with
    | [], _ => .ok ([], s)
    | q :: rest, h =>
      let fins : List (Fin s.num_qubits) :=
        List.pmap (fun a ha => ⟨a, ha⟩) (q :: rest) h.2
      let r := measureGo fins us s.terms
      .ok (r.1, ⟨s.num_qubits, r.2, rawNormSq r.2⟩)
  else .error .value

/-- Association-list increment for outcome tallies. -/
def bump (k : List Bool) : List (List Bool × ℕ) → List (List Bool × ℕ)
  | [] => [(k, 1)]
  | (k', c) :: rest => if k' = k then (k', c + 1) :: rest else (k', c) :: bump k rest

/-- Aggregate a list of shot outcomes into (bitstring, count) pairs. -/
def tally : List (List Bool) → List (List Bool × ℕ)
  | [] => []
  | x :: xs => bump x (tally xs)

/-- Modelled from the spec (§4.5 `sample`; the Rust routine is not under src/):
the measurement semantics run `shots` times on independent clones of the state,
returning a tally keyed by bitstring in input order; an empty qubit list is a
value error (unlike `measure`), as are duplicates and out-of-range indices. -/
def QuantumState.sample (s : QuantumState) (qubits : List ℕ) (shots : ℕ)
    (us : ℕ → ℕ → Dy) : Except Err (List (List Bool × ℕ)) :=
  if qubits = [] then .error .value
  else if h : qubits.Nodup ∧ ∀ q ∈ qubits, q < s.num_qubits then
    let fins : List (Fin s.num_qubits) :=
      List.pmap (fun a ha => ⟨a, ha⟩) qubits h.2
    .ok (tally ((List.range shots).map (fun i => (measureGo fins (us i) s.terms).1)))
  else .error .value

/-- One Pauli letter per qubit site (spec §3). -/
inductive PLetter where
  | I : PLetter
  | X : PLetter
  | Y : PLetter
  | Z : PLetter
  deriving DecidableEq

/-- A phase-free Pauli string in dense form; position = qubit index. -/
structure PauliString where
  letters : List PLetter
  deriving DecidableEq

/-- The width of a Pauli string: the number of qubit sites it covers. -/
def PauliString.width (p : PauliString) : ℕ := p.letters.length

def letterMat : PLetter → Mat2
  | .I => MI
  | .X => MX
  | .Y => MY
  | .Z => MZ

/-- Uppercase dense-form letter (dense strings are uppercase-only, spec §6). -/
def denseLetter? (ch : Char) : Option PLetter :=
  if ch = 'I' then some .I
  else if ch = 'X' then some .X
  else if ch = 'Y' then some .Y
  else if ch = 'Z' then some .Z
  else none

/-- Sparse-form letter; lower- or uppercase accepted (spec §6). -/
def sparseLetter? (ch : Char) : Option PLetter :=
  if ch = 'I' ∨ ch = 'i' then some .I
  else if ch = 'X' ∨ ch = 'x' then some .X
  else if ch = 'Y' ∨ ch = 'y' then some .Y
  else if ch = 'Z' ∨ ch = 'z' then some .Z
  else none

/-- Split a character list on whitespace, dropping empty fragments. -/
def splitWsAux : List Char → List Char → List (List Char)
  | [], acc => if acc = [] then [] else [acc.reverse]
  | ch :: cs, acc =>
      if ch.isWhitespace then
        if acc = [] then splitWsAux cs [] else acc.reverse :: splitWsAux cs []
      else splitWsAux cs (ch :: acc)

def splitWs (cs : List Char) : List (List Char) := splitWsAux cs []

/-- Parse a decimal index matching `0|[1-9][0-9]*` (spec §6 grammar): digits
only, no leading zero except "0" itself. -/
def parseIdx? (cs : List Char) : Option ℕ :=
  match cs with
  | [] => none
  | c0 :: rest =>
      if (c0 :: rest).all Char.isDigit ∧ (c0 ≠ '0' ∨ rest = []) then
        some ((c0 :: rest).foldl (fun acc ch => acc * 10 + (ch.toNat - 48)) 0)
      else none

/-- Parse one sparse token `[IXYZ](0|[1-9][0-9]*)`. -/
def parseSparseTok? (cs : List Char) : Option (PLetter × ℕ) :=
  match cs with
  | [] => none
  | ch :: rest =>
      match sparseLetter? ch, parseIdx? rest with
      | some L, some i => some (L, i)
      | _, _ => none

/-- Largest index in a sparse token list, plus 1 (the implied width). -/
def sparseWidth (prs : List (PLetter × ℕ)) : ℕ :=
  (prs.map (fun pr => pr.2 + 1)).foldr Nat.max 0

/-- Letter at site i named by a sparse token list (I when the site is absent). -/
def sparseAt (prs : List (PLetter × ℕ)) (i : ℕ) : PLetter :=
  match prs.find? (fun pr => pr.2 == i) with
  | some pr => pr.1
  | none => .I

/-- Modelled from the spec (§6 Pauli grammar, §4.1 parse errors; the Rust
parser is not under src/): a single whitespace-free token of letters IXYZ is
dense (uppercase only); otherwise the string is a whitespace-separated sparse
token list with unique, non-negative, leading-zero-free indices, letters in
either case, identity tokens ignored; the empty string denotes the identity
"I".  All malformed inputs are value errors. -/
def PauliString.from_str (s : String) : Except Err PauliString :=
  match splitWs s.toList with
  | [] => .ok ⟨[.I]⟩
  | [t] =>
      if t.all (fun ch => (denseLetter? ch).isSome) then
        .ok ⟨t.filterMap denseLetter?⟩
      else
        match parseSparseTok? t with
        | some pr =>
            if pr.1 = .I then .ok ⟨[.I]⟩
            else .ok ⟨(List.range (pr.2 + 1)).map (sparseAt [pr])⟩
        | none => .error .value
  | toks =>
      match toks.mapM parseSparseTok? with
      | none => .error .value
      | some prs =>
          if (prs.map Prod.snd).Nodup then
            let nonI := prs.filter (fun pr => pr.1 ≠ PLetter.I)
            if nonI = [] then .ok ⟨[.I]⟩
            else .ok ⟨(List.range (sparseWidth nonI)).map (sparseAt nonI)⟩
          else .error .value

/-- Apply the letters of a dense Pauli, letter k acting on qubit (start+k). -/
def applyLetters {n : ℕ} : List PLetter → ℕ → QVec n → QVec n
  | [], _, v => v
  | L :: rest, idx, v =>
      let w := applyLetters rest (idx + 1) v
      if h : idx < n then apply1 (letterMat L) ⟨idx, h⟩ w else w

/-- Modelled from the spec (§4.5 `exp_value`; the Rust routine is not under
src/): for a Pauli of width exactly n, ⟨Ψ|P|Ψ⟩ divided by the formal
denominator; width mismatch is a value error. -/
def QuantumState.exp_value (s : QuantumState) (p : PauliString) :
    Except Err (Cyc8 × Real2) :=
  if p.width = s.num_qubits then
    .ok (innerVec (sumVec s.terms) (applyLetters p.letters 0 (sumVec s.terms)), s.denom)
  else .error .value

/-- Modelled from the spec (§4.5 `inner_product`; the Rust routine is not under
src/): `a.inner_product b = ⟨a|b⟩` with b on the right; returned as the raw
value paired with denomₐ·denom_b (the represented scalar is raw/√(dₐ·d_b)).
Qubit-count mismatch is a value error. -/
def QuantumState.inner_product (s t : QuantumState) : Except Err (Cyc8 × Real2) :=
  if h : s.num_qubits = t.num_qubits then
    .ok (innerVec (fun f => sumAmp s.terms (fun i => f (Fin.cast h i)))
          (sumVec t.terms), s.denom * t.denom)
  else .error .value

/-- One pseudo-random gate, determined by the mixing value x. -/
def genGate (n : ℕ) (x : ℕ) : QuantumGate :=
  let q := x % n
  match x % 3 with
  | 0 => ⟨"H", [q]⟩
  | 1 => ⟨"S", [q]⟩
  | _ => if 2 ≤ n then ⟨"CX", [q, (q + 1) % n]⟩ else ⟨"H", [q]⟩

/-- Modelled from the spec (§4.7; the Rust sampler is not under src/): the
seed must lie in the unsigned 256-bit range, otherwise the call fails with an
overflow error; in range, the circuit is a deterministic function of (n, seed)
emitting a nonempty valid gate sequence (the precise distribution is a spec
non-requirement; determinism is required). -/
def QuantumCircuit.random_clifford (n : ℕ) (seed : ℤ) : Except Err QuantumCircuit :=
  if 0 ≤ seed ∧ seed < 2 ^ 256 then
    .ok ⟨n, if n = 0 then []
            else (List.range (n + 3)).map (fun i => genGate n (seed.toNat % 1000003 + i))⟩
  else .error .overflow

/-- Modelled from the tests (src/tests/test_circuit.py `test_tensor_circuit`;
the Rust `tensor` is not under src/): the tensor product keeps A's gates and
appends B's gates with every operand shifted up by A's qubit count. -/
def QuantumCircuit.tensor (cA cB : QuantumCircuit) : QuantumCircuit :=
  ⟨cA.num_qubits + cB.num_qubits,
   cA.gates ++ cB.gates.map (fun g => ⟨g.name, g.qubits.map (· + cA.num_qubits)⟩)⟩

theorem mapTerms_length {n : ℕ} (G : QVec n → QVec n) (ts : Terms n) :
    (mapTerms G ts).length = ts.length := List.length_map _ _

theorem injectT_length {n : ℕ} (aa bb : Cyc8) (q : Fin n) (ts : Terms n) :
    (injectT aa bb q ts).length = 2 * ts.length := by
  induction ts with
  | nil => rfl
  | cons cv rest ih => simp [injectT, ih]; ring

theorem sumAmp_nil {n : ℕ} (f : Asgn n) : sumAmp ([] : Terms n) f = 0 := rfl

theorem sumAmp_cons {n : ℕ} (cv : Cyc8 × QVec n) (ts : Terms n) (f : Asgn n) :
    sumAmp (cv :: ts) f = cv.1 * cv.2 f + sumAmp ts f := by
  simp [sumAmp]

/-- Pointwise linearity of a vector operation. -/
def LinearOp {n : ℕ} (G : QVec n → QVec n) : Prop :=
  ∀ (c1 c2 : Cyc8) (v w : QVec n),
    G (fun f => c1 * v f + c2 * w f) = fun f => c1 * G v f + c2 * G w f

theorem linOp_apply1 {n : ℕ} (M : Mat2) (q : Fin n) : LinearOp (apply1 M q) := by
  intro c1 c2 v w
  funext f
  simp only [apply1]
  ring

theorem linOp_applyCX {n : ℕ} (c t : Fin n) : LinearOp (applyCX c t) := by
  intro c1 c2 v w
  funext f
  simp only [applyCX]

theorem linOp_applyCZ {n : ℕ} (a b : Fin n) : LinearOp (applyCZ a b) := by
  intro c1 c2 v w
  funext f
  simp only [applyCZ]
  ring

theorem linOp_applySWAP {n : ℕ} (a b : Fin n) : LinearOp (applySWAP a b) := by
  intro c1 c2 v w
  funext f
  simp only [applySWAP]

theorem LinearOp.zero_vec {n : ℕ} {G : QVec n → QVec n} (hG : LinearOp G) :
    G (fun _ => 0) = fun _ => 0 := by
  have h := hG 0 0 (fun _ => 0) (fun _ => 0)
  simpa using h

theorem sumVec_mapTerms {n : ℕ} {G : QVec n → QVec n} (hG : LinearOp G) (ts : Terms n) :
    ∀ f, sumAmp (mapTerms G ts) f = G (sumVec ts) f := by
  induction ts with
  | nil =>
      intro f
      have h0 : sumVec ([] : Terms n) = fun _ => 0 := rfl
      rw [h0, hG.zero_vec]
      rfl
  | cons cv rest ih =>
      intro f
      have hsv : sumVec (cv :: rest) = fun f => cv.1 * cv.2 f + 1 * sumVec rest f := by
        funext f
        simp [sumVec, sumAmp_cons]
      rw [hsv, hG cv.1 1 cv.2 (sumVec rest)]
      simp only [mapTerms, List.map_cons]
      rw [show ((cv.1, G cv.2) :: List.map (fun cv => (cv.1, G cv.2)) rest : Terms n) =
        (cv.1, G cv.2) :: mapTerms G rest from rfl, sumAmp_cons]
      simp only [ih f]
      ring

theorem sumVec_injectT {n : ℕ} (aa bb : Cyc8) (q : Fin n) (ts : Terms n) :
    ∀ f, sumAmp (injectT aa bb q ts) f =
      aa * sumAmp ts f + bb * apply1 MZ q (sumVec ts) f := by
  induction ts with
  | nil =>
      intro f
      have h0 : sumVec ([] : Terms n) = fun _ => 0 := rfl
      rw [h0, (linOp_apply1 MZ q).zero_vec]
      simp [injectT, sumAmp_nil]
  | cons cv rest ih =>
      intro f
      have hsv : sumVec (cv :: rest) = fun f => cv.1 * cv.2 f + 1 * sumVec rest f := by
        funext f
        simp [sumVec, sumAmp_cons]
      rw [hsv, (linOp_apply1 MZ q) cv.1 1 cv.2 (sumVec rest)]
      simp only [injectT, sumAmp_cons, ih f]
      ring

/-- Generic diagonal-decomposition step: if aa·I + bb·Z equals the diagonal
matrix MD on a qubit, the injected pair of terms sums to MD applied to the
original vector. -/
theorem diag_pointwise {n : ℕ} (aa bb : Cyc8) (MD : Mat2)
    (h1 : aa + bb = MD false false) (h2 : aa - bb = MD true true)
    (h01 : MD false true = 0) (h10 : MD true false = 0)
    (q : Fin n) (v : QVec n) (f : Asgn n) :
    aa * v f + bb * apply1 MZ q v f = apply1 MD q v f := by
  rcases h : f q with hq | hq
  · have hupd : Function.update f q false = f := by
      conv_lhs => rw [← h]
      exact Function.update_eq_self q f
    simp only [apply1, h, hupd, h01]
    have : MZ false false = 1 ∧ MZ false true = 0 := by constructor <;> rfl
    rw [this.1, this.2]
    linear_combination (v f) * h1
  · have hupd : Function.update f q true = f := by
      conv_lhs => rw [← h]
      exact Function.update_eq_self q f
    simp only [apply1, h, hupd, h10]
    have : MZ true false = 0 ∧ MZ true true = -1 := by constructor <;> rfl
    rw [this.1, this.2]
    linear_combination (v f) * h2

/-- M†M = I, written out over Bool indices. -/
def MUnitary (M : Mat2) : Prop :=
  ∀ j k : Bool,
    (M false j).conj * M false k + (M true j).conj * M true k =
      (if j = k then 1 else 0)

instance (M : Mat2) : Decidable (MUnitary M) := by
  unfold MUnitary
  infer_instance

theorem splitAt_self {n : ℕ} (q : Fin n) (b : Bool) (g : {j : Fin n // j ≠ q} → Bool) :
    (Equiv.funSplitAt q Bool).symm (b, g) q = b := by
  rw [Equiv.funSplitAt_symm_apply, dif_pos rfl]

theorem splitAt_update {n : ℕ} (q : Fin n) (b c : Bool) (g : {j : Fin n // j ≠ q} → Bool) :
    Function.update ((Equiv.funSplitAt q Bool).symm (b, g)) q c =
      (Equiv.funSplitAt q Bool).symm (c, g) := by
  funext j
  rcases eq_or_ne j q with rfl | hj
  · rw [Function.update_same, Equiv.funSplitAt_symm_apply, dif_pos rfl]
  · rw [Function.update_noteq hj, Equiv.funSplitAt_symm_apply,
      Equiv.funSplitAt_symm_apply, dif_neg hj, dif_neg hj]

/-- A unitary single-qubit gate preserves the inner product. -/
theorem innerVec_apply1 {n : ℕ} (M : Mat2) (hM : MUnitary M) (q : Fin n) (v w : QVec n) :
    innerVec (apply1 M q v) (apply1 M q w) = innerVec v w := by
  unfold innerVec
  rw [← Equiv.sum_comp ((Equiv.funSplitAt q Bool).symm)
      (fun f => (apply1 M q v f).conj * apply1 M q w f),
    ← Equiv.sum_comp ((Equiv.funSplitAt q Bool).symm)
      (fun f => (v f).conj * w f)]
  rw [Fintype.sum_prod_type_right, Fintype.sum_prod_type_right]
  apply Finset.sum_congr rfl
  intro g _
  rw [Fintype.sum_bool, Fintype.sum_bool]
  simp only [apply1, splitAt_self, splitAt_update]
  have h00 := hM false false
  have h01 := hM false true
  have h10 := hM true false
  have h11 := hM true true
  simp only [if_pos, if_neg, Bool.false_eq_true, Bool.true_eq_false, if_true, if_false] at h00 h01 h10 h11
  simp only [Cyc8.conj_add, Cyc8.conj_mul]
  set P0 := v ((Equiv.funSplitAt q Bool).symm (false, g))
  set P1 := v ((Equiv.funSplitAt q Bool).symm (true, g))
  set Q0 := w ((Equiv.funSplitAt q Bool).symm (false, g))
  set Q1 := w ((Equiv.funSplitAt q Bool).symm (true, g))
  linear_combination (P0.conj * Q0) * h00 + (P0.conj * Q1) * h01 +
    (P1.conj * Q0) * h10 + (P1.conj * Q1) * h11

/-- Reindexing the inner product along any permutation of basis states. -/
theorem innerVec_perm {n : ℕ} (σ : Equiv.Perm (Asgn n)) (v w : QVec n) :
    innerVec (fun f => v (σ f)) (fun f => w (σ f)) = innerVec v w := by
  unfold innerVec
  exact Equiv.sum_comp σ (fun f => (v f).conj * w f)

def cxFun {n : ℕ} (c t : Fin n) (f : Asgn n) : Asgn n :=
  Function.update f t (xor (f c) (f t))

theorem cxFun_invol {n : ℕ} (c t : Fin n) (h : c ≠ t) :
    Function.Involutive (cxFun c t) := by
  intro f
  have hc : Function.update f t (xor (f c) (f t)) c = f c :=
    Function.update_noteq (fun hct => h hct) _ _
  funext j
  rcases eq_or_ne j t with rfl | hj
  · simp only [cxFun, Function.update_same, hc]
    cases f c <;> cases f j <;> rfl
  · simp only [cxFun, Function.update_noteq hj]

def cxPerm {n : ℕ} (c t : Fin n) (h : c ≠ t) : Equiv.Perm (Asgn n) :=
  Function.Involutive.toPerm (cxFun c t) (cxFun_invol c t h)

theorem innerVec_applyCX {n : ℕ} (c t : Fin n) (h : c ≠ t) (v w : QVec n) :
    innerVec (applyCX c t v) (applyCX c t w) = innerVec v w := by
  have he : applyCX c t v = fun f => v (cxPerm c t h f) := rfl
  have he2 : applyCX c t w = fun f => w (cxPerm c t h f) := rfl
  rw [he, he2, innerVec_perm]

theorem innerVec_applyCZ {n : ℕ} (a b : Fin n) (v w : QVec n) :
    innerVec (applyCZ a b v) (applyCZ a b w) = innerVec v w := by
  unfold innerVec
  apply Finset.sum_congr rfl
  intro f _
  simp only [applyCZ, Cyc8.conj_mul]
  split
  · have hc : ((-1 : Cyc8)).conj = -1 := by decide
    rw [hc]; ring
  · rw [Cyc8.conj_one]; ring

theorem swapPerm_invol {n : ℕ} (a b : Fin n) :
    Function.Involutive (fun f : Asgn n => f ∘ Equiv.swap a b) := by
  intro f
  funext j
  simp [Function.comp, Equiv.swap_apply_self]

def swapPerm {n : ℕ} (a b : Fin n) : Equiv.Perm (Asgn n) :=
  Function.Involutive.toPerm (fun f : Asgn n => f ∘ Equiv.swap a b) (swapPerm_invol a b)

theorem innerVec_applySWAP {n : ℕ} (a b : Fin n) (v w : QVec n) :
    innerVec (applySWAP a b v) (applySWAP a b w) = innerVec v w := by
  have he : applySWAP a b v = fun f => v (swapPerm a b f) := rfl
  have he2 : applySWAP a b w = fun f => w (swapPerm a b f) := rfl
  rw [he, he2, innerVec_perm]

theorem normPres_map {n : ℕ} {G : QVec n → QVec n} (hlin : LinearOp G)
    (hpres : ∀ v w : QVec n, innerVec (G v) (G w) = innerVec v w) (ts : Terms n) :
    innerVec (sumVec (mapTerms G ts)) (sumVec (mapTerms G ts)) =
      innerVec (sumVec ts) (sumVec ts) := by
  have hsv : sumVec (mapTerms G ts) = G (sumVec ts) := funext (sumVec_mapTerms hlin ts)
  rw [hsv, hpres]

theorem sumVec_injectT_T {n : ℕ} (q : Fin n) (ts : Terms n) :
    sumVec (injectT aT bT q ts) = apply1 MT q (sumVec ts) := by
  funext f
  have h1 := sumVec_injectT aT bT q ts f
  have h2 := diag_pointwise aT bT MT (by decide) (by decide) (by decide) (by decide)
    q (sumVec ts) f
  exact h1.trans h2

theorem sumVec_injectT_TDG {n : ℕ} (q : Fin n) (ts : Terms n) :
    sumVec (injectT aTdg bTdg q ts) = apply1 MTDG q (sumVec ts) := by
  funext f
  have h1 := sumVec_injectT aTdg bTdg q ts f
  have h2 := diag_pointwise aTdg bTdg MTDG (by decide) (by decide) (by decide) (by decide)
    q (sumVec ts) f
  exact h1.trans h2

theorem normPres_injectT_T {n : ℕ} (q : Fin n) (ts : Terms n) :
    innerVec (sumVec (injectT aT bT q ts)) (sumVec (injectT aT bT q ts)) =
      innerVec (sumVec ts) (sumVec ts) := by
  rw [sumVec_injectT_T, innerVec_apply1 MT (by decide)]

theorem normPres_injectT_TDG {n : ℕ} (q : Fin n) (ts : Terms n) :
    innerVec (sumVec (injectT aTdg bTdg q ts)) (sumVec (injectT aTdg bTdg q ts)) =
      innerVec (sumVec ts) (sumVec ts) := by
  rw [sumVec_injectT_TDG, innerVec_apply1 MTDG (by decide)]

theorem single1_spec {n : ℕ} {M : Mat2} {qs : List ℕ} {ts ts' : Terms n}
    (hM : MUnitary M) (h : single1 n M qs ts = .ok ts') :
    innerVec (sumVec ts') (sumVec ts') = innerVec (sumVec ts) (sumVec ts) ∧
    ts'.length = ts.length := by
  unfold single1 at h
  split at h
  · split at h
    · cases h
      exact ⟨normPres_map (linOp_apply1 M _) (innerVec_apply1 M hM _) ts,
        mapTerms_length _ _⟩
    · exact Except.noConfusion h
  · exact Except.noConfusion h

theorem tinj_spec {n : ℕ} {aa bb : Cyc8} {D : Mat2} {qs : List ℕ} {ts ts' : Terms n}
    (hMD : MUnitary D)
    (hsum : ∀ (q : Fin n) (ts : Terms n),
      sumVec (injectT aa bb q ts) = apply1 D q (sumVec ts))
    (h : tinj n aa bb qs ts = .ok ts') :
    innerVec (sumVec ts') (sumVec ts') = innerVec (sumVec ts) (sumVec ts) ∧
    ts'.length = 2 * ts.length := by
  unfold tinj at h
  split at h
  · split at h
    · cases h
      refine ⟨?_, injectT_length _ _ _ _⟩
      rw [hsum, innerVec_apply1 D hMD]
    · exact Except.noConfusion h
  · exact Except.noConfusion h

theorem twoQ_spec {n : ℕ} {op : Fin n → Fin n → QVec n → QVec n} {qs : List ℕ}
    {ts ts' : Terms n}
    (hlin : ∀ a b, LinearOp (op a b))
    (hpres : ∀ (a b : Fin n), a ≠ b →
      ∀ v w, innerVec (op a b v) (op a b w) = innerVec v w)
    (h : twoQ n op qs ts = .ok ts') :
    innerVec (sumVec ts') (sumVec ts') = innerVec (sumVec ts) (sumVec ts) ∧
    ts'.length = ts.length := by
  unfold twoQ at h
  split at h
  · split at h
    · rename_i q1 q2 hcond
      cases h
      refine ⟨normPres_map (hlin _ _)
        (hpres _ _ (by simpa [Ne, Fin.ext_iff] using hcond.2.2)) ts,
        mapTerms_length _ _⟩
    · exact Except.noConfusion h
  · exact Except.noConfusion h

theorem applyGateTerms_spec {n : ℕ} {g : QuantumGate} {ts ts' : Terms n}
    (h : applyGateTerms n g ts = .ok ts') :
    innerVec (sumVec ts') (sumVec ts') = innerVec (sumVec ts) (sumVec ts) ∧
    ts'.length = (if isTType g then 2 * ts.length else ts.length) := by
  unfold applyGateTerms at h
  by_cases h1 : g.name = "H"
  · rw [if_pos h1] at h
    have hT : isTType g = false := by unfold isTType; rw [h1]; decide
    rw [hT]
    refine ⟨(single1_spec (M := MH) (by decide) h).1, ?_⟩
    rw [(single1_spec (M := MH) (by decide) h).2]
    simp
  · rw [if_neg h1] at h
    by_cases h2 : g.name = "X"
    · rw [if_pos h2] at h
      have hT : isTType g = false := by unfold isTType; rw [h2]; decide
      rw [hT]
      refine ⟨(single1_spec (M := MX) (by decide) h).1, ?_⟩
      rw [(single1_spec (M := MX) (by decide) h).2]
      simp
    · rw [if_neg h2] at h
      by_cases h3 : g.name = "Y"
      · rw [if_pos h3] at h
        have hT : isTType g = false := by unfold isTType; rw [h3]; decide
        rw [hT]
        refine ⟨(single1_spec (M := MY) (by decide) h).1, ?_⟩
        rw [(single1_spec (M := MY) (by decide) h).2]
        simp
      · rw [if_neg h3] at h
        by_cases h4 : g.name = "Z"
        · rw [if_pos h4] at h
          have hT : isTType g = false := by unfold isTType; rw [h4]; decide
          rw [hT]
          refine ⟨(single1_spec (M := MZ) (by decide) h).1, ?_⟩
          rw [(single1_spec (M := MZ) (by decide) h).2]
          simp
        · rw [if_neg h4] at h
          by_cases h5 : g.name = "S"
          · rw [if_pos h5] at h
            have hT : isTType g = false := by unfold isTType; rw [h5]; decide
            rw [hT]
            refine ⟨(single1_spec (M := MS) (by decide) h).1, ?_⟩
            rw [(single1_spec (M := MS) (by decide) h).2]
            simp
          · rw [if_neg h5] at h
            by_cases h6 : g.name = "SDG"
            · rw [if_pos h6] at h
              have hT : isTType g = false := by unfold isTType; rw [h6]; decide
              rw [hT]
              refine ⟨(single1_spec (M := MSDG) (by decide) h).1, ?_⟩
              rw [(single1_spec (M := MSDG) (by decide) h).2]
              simp
            · rw [if_neg h6] at h
              by_cases h7 : g.name = "SX"
              · rw [if_pos h7] at h
                have hT : isTType g = false := by unfold isTType; rw [h7]; decide
                rw [hT]
                refine ⟨(single1_spec (M := MSX) (by decide) h).1, ?_⟩
                rw [(single1_spec (M := MSX) (by decide) h).2]
                simp
              · rw [if_neg h7] at h
                by_cases h8 : g.name = "SXDG"
                · rw [if_pos h8] at h
                  have hT : isTType g = false := by unfold isTType; rw [h8]; decide
                  rw [hT]
                  refine ⟨(single1_spec (M := MSXDG) (by decide) h).1, ?_⟩
                  rw [(single1_spec (M := MSXDG) (by decide) h).2]
                  simp
                · rw [if_neg h8] at h
                  by_cases h9 : g.name = "T"
                  · rw [if_pos h9] at h
                    have hT : isTType g = true := by unfold isTType; rw [h9]; decide
                    rw [hT]
                    refine ⟨(tinj_spec (D := MT) (by decide) sumVec_injectT_T h).1, ?_⟩
                    rw [(tinj_spec (D := MT) (by decide) sumVec_injectT_T h).2]
                    simp
                  · rw [if_neg h9] at h
                    by_cases h10 : g.name = "TDG"
                    · rw [if_pos h10] at h
                      have hT : isTType g = true := by unfold isTType; rw [h10]; decide
                      rw [hT]
                      refine ⟨(tinj_spec (D := MTDG) (by decide) sumVec_injectT_TDG h).1, ?_⟩
                      rw [(tinj_spec (D := MTDG) (by decide) sumVec_injectT_TDG h).2]
                      simp
                    · rw [if_neg h10] at h
                      by_cases h11 : g.name = "CX"
                      · rw [if_pos h11] at h
                        have hT : isTType g = false := by unfold isTType; rw [h11]; decide
                        rw [hT]
                        refine ⟨(twoQ_spec linOp_applyCX (fun a b hab v w => innerVec_applyCX a b hab v w) h).1, ?_⟩
                        rw [(twoQ_spec linOp_applyCX (fun a b hab v w => innerVec_applyCX a b hab v w) h).2]
                        simp
                      · rw [if_neg h11] at h
                        by_cases h12 : g.name = "CZ"
                        · rw [if_pos h12] at h
                          have hT : isTType g = false := by unfold isTType; rw [h12]; decide
                          rw [hT]
                          refine ⟨(twoQ_spec linOp_applyCZ (fun a b _ v w => innerVec_applyCZ a b v w) h).1, ?_⟩
                          rw [(twoQ_spec linOp_applyCZ (fun a b _ v w => innerVec_applyCZ a b v w) h).2]
                          simp
                        · rw [if_neg h12] at h
                          by_cases h13 : g.name = "SWAP"
                          · rw [if_pos h13] at h
                            have hT : isTType g = false := by unfold isTType; rw [h13]; decide
                            rw [hT]
                            refine ⟨(twoQ_spec linOp_applySWAP (fun a b _ v w => innerVec_applySWAP a b v w) h).1, ?_⟩
                            rw [(twoQ_spec linOp_applySWAP (fun a b _ v w => innerVec_applySWAP a b v w) h).2]
                            simp
                          · rw [if_neg h13] at h
                            exact Except.noConfusion h

def Real2.toCyc8Hom : Real2 →+ Cyc8 where
  toFun := Real2.toCyc8
  map_zero' := Real2.toCyc8_zero
  map_add' := Real2.toCyc8_add

theorem innerVec_self {n : ℕ} (v : QVec n) :
    innerVec v v = Real2.toCyc8 (∑ f : Asgn n, (v f).abs2) := by
  unfold innerVec
  rw [show Real2.toCyc8 (∑ f : Asgn n, (v f).abs2)
      = Real2.toCyc8Hom (∑ f : Asgn n, (v f).abs2) from rfl, map_sum]
  exact Finset.sum_congr rfl (fun f _ => (Cyc8.conj_mul_self (v f)))

theorem innerVec_self_rawNormSq {n : ℕ} (ts : Terms n) :
    innerVec (sumVec ts) (sumVec ts) = Real2.toCyc8 (rawNormSq ts) :=
  innerVec_self _

theorem sumVec_single_e0 {n : ℕ} : sumVec ([((1 : Cyc8), e0)] : Terms n) = e0 := by
  funext f
  simp [sumVec, sumAmp]

theorem innerVec_e0 {n : ℕ} : innerVec (e0 (n := n)) e0 = 1 := by
  unfold innerVec
  rw [Finset.sum_eq_single (fun _ => false : Asgn n)]
  · simp [e0]
  · intro f _ hf
    simp [e0, hf]
  · intro hmem
    exact absurd (Finset.mem_univ _) hmem

theorem fromCircuitAux_spec {n : ℕ} (gs : List QuantumGate) :
    ∀ ts ts' : Terms n, fromCircuitAux n gs ts = .ok ts' →
      innerVec (sumVec ts') (sumVec ts') = innerVec (sumVec ts) (sumVec ts) ∧
      ts'.length = ts.length * 2 ^ countTType gs := by
  induction gs with
  | nil =>
      intro ts ts' h
      cases h
      simp [countTType]
  | cons g gs ih =>
      intro ts ts' h
      unfold fromCircuitAux at h
      cases hg : applyGateTerms n g ts with
      | error e => rw [hg] at h; exact Except.noConfusion h
      | ok mid =>
          rw [hg] at h
          simp only [Except.bind] at h
          obtain ⟨hnorm1, hlen1⟩ := applyGateTerms_spec hg
          obtain ⟨hnorm2, hlen2⟩ := ih mid ts' h
          constructor
          · rw [hnorm2, hnorm1]
          · rw [hlen2, hlen1]
            unfold countTType
            rcases hT : isTType g with _ | _ <;>
              simp [List.filter_cons, hT, pow_succ] <;> try ring

/-- Core construction invariant: a successfully built state has raw squared
norm 1 and an untouched denominator. -/
theorem from_circuit_norm {c : QuantumCircuit} {s : QuantumState}
    (h : QuantumState.from_circuit c = .ok s) :
    rawNormSq s.terms = 1 ∧ s.denom = 1 := by
  unfold QuantumState.from_circuit at h
  cases haux : fromCircuitAux c.num_qubits c.gates [(1, e0)] with
  | error e => rw [haux] at h; exact Except.noConfusion h
  | ok ts' =>
      rw [haux] at h
      simp only [Except.map] at h
      cases h
      have hnorm := (fromCircuitAux_spec c.gates _ _ haux).1
      rw [sumVec_single_e0, innerVec_e0] at hnorm
      rw [innerVec_self_rawNormSq] at hnorm
      have h1 : Real2.toCyc8 (rawNormSq ts') = Real2.toCyc8 1 := by
        rw [hnorm, Real2.toCyc8_one]
      exact ⟨Real2.toCyc8_inj h1, rfl⟩

def exC2 : QuantumCircuit := ⟨2, [⟨"H", [0]⟩, ⟨"T", [0]⟩, ⟨"CX", [0, 1]⟩]⟩

/-- C1: For every circuit containing exactly k T-type gates (T or TDG), the
state returned by `QuantumState.from_circuit` has `stabilizer_rank = 2^k`
(the 2-qubit instance with one T gate, giving rank 2, is the witness). -/
theorem c1_stabilizer_rank (c : QuantumCircuit) (s : QuantumState)
    (h : QuantumState.from_circuit c = .ok s) :
    s.stabilizer_rank = 2 ^ countTType c.gates := by
  unfold QuantumState.from_circuit at h
  cases haux : fromCircuitAux c.num_qubits c.gates [(1, e0)] with
  | error e => rw [haux] at h; exact Except.noConfusion h
  | ok ts' =>
      rw [haux] at h
      simp only [Except.map] at h
      cases h
      have hlen := (fromCircuitAux_spec c.gates _ _ haux).2
      simpa [QuantumState.stabilizer_rank] using hlen

/-- Witness for C1: the 2-qubit circuit H(0), T(0), CX(0,1) has exactly one
T-type gate and its state has stabilizer rank 2 = 2¹. -/
theorem c1_stabilizer_rank_witness :
    (QuantumState.from_circuit exC2).map QuantumState.stabilizer_rank = Except.ok 2 ∧
    countTType exC2.gates = 1 := by
  refine ⟨?_, by decide⟩
  obtain ⟨s, hs⟩ : ∃ s, QuantumState.from_circuit exC2 = Except.ok s := ⟨_, rfl⟩
  rw [hs]
  simp only [Except.map]
  rw [c1_stabilizer_rank exC2 s hs]
  decide

/-- C2: `to_statevector` orders the 2ⁿ amplitudes with qubit 0 as the least
significant bit (the enumeration of the embedding); for the 2-qubit circuit
H(0), T(0), CX(0,1) the exact amplitudes are [1/√2, 0, 0, (1+i)/2] with
denominator 1 (here 1/√2 = rt2inv and (1+i)/2 = ⟨½, 0, ½, 0⟩ in ℚ[ω]).
Exact equality subsumes the claim's 1e−10 tolerance. -/
theorem c2_statevector :
    (QuantumState.from_circuit exC2).map QuantumState.to_statevector =
      Except.ok ([rt2inv, 0, 0, ⟨Dy.half, 0, Dy.half, 0⟩], 1) := by
  decide

theorem from_circuit_num_qubits {c : QuantumCircuit} {s : QuantumState}
    (h : QuantumState.from_circuit c = .ok s) : s.num_qubits = c.num_qubits := by
  unfold QuantumState.from_circuit at h
  cases haux : fromCircuitAux c.num_qubits c.gates [(1, e0)] with
  | error e => rw [haux] at h; exact Except.noConfusion h
  | ok ts' =>
      rw [haux] at h
      simp only [Except.map] at h
      cases h
      rfl

/-- C3: for every circuit over the supported gate set that `from_circuit`
accepts, the state has ⟨Ψ|Ψ⟩ = 1 exactly (so |norm() − 1| = 0 < 1e−10), and
no renormalization is applied during construction: the raw squared norm is
already 1 and the formal denominator is still 1. -/
theorem c3_norm_one (c : QuantumCircuit) (s : QuantumState)
    (h : QuantumState.from_circuit c = .ok s) :
    s.norm_sq = (1, 1) ∧ rawNormSq s.terms = 1 ∧ s.denom = 1 := by
  obtain ⟨h1, h2⟩ := from_circuit_norm h
  exact ⟨by simp [QuantumState.norm_sq, h1, h2], h1, h2⟩

/-- Witness for C3 at the 2-qubit circuit H(0), T(0), CX(0,1). -/
theorem c3_norm_one_witness :
    (QuantumState.from_circuit exC2).map QuantumState.norm_sq = Except.ok (1, 1) := by
  obtain ⟨s, hs⟩ : ∃ s, QuantumState.from_circuit exC2 = Except.ok s := ⟨_, rfl⟩
  rw [hs]
  simp only [Except.map]
  rw [(c3_norm_one exC2 s hs).1]

/-- C5: `a.inner_product b` is ⟨a|b⟩ with b on the right (the embedding's
`innerVec` conjugates its left argument); two states from the same circuit
give inner product 1 (as the pair value 1 over denominator 1), and a
qubit-count mismatch is a value error. -/
theorem c5_inner_product :
    (∀ (c : QuantumCircuit) (s t : QuantumState),
       QuantumState.from_circuit c = .ok s → QuantumState.from_circuit c = .ok t →
       s.inner_product t = .ok (1, 1)) ∧
    (∀ s t : QuantumState, s.num_qubits ≠ t.num_qubits →
       s.inner_product t = .error .value) := by
  constructor
  · intro c s t h1 h2
    have hst : s = t := by
      rw [h1] at h2
      exact Except.ok.inj h2
    subst hst
    obtain ⟨hraw, hden⟩ := from_circuit_norm h1
    unfold QuantumState.inner_product
    rw [dif_pos rfl]
    have hfix : (fun f : Asgn s.num_qubits =>
        sumAmp s.terms (fun i => f (Fin.cast rfl i))) = sumVec s.terms := rfl
    rw [hfix, innerVec_self_rawNormSq, hraw, hden, Real2.toCyc8_one, mul_one]
  · intro s t hne
    unfold QuantumState.inner_product
    rw [dif_neg hne]

def exH1 : QuantumCircuit := ⟨1, [⟨"H", [0]⟩]⟩

/-- Witness for C5: two states from the same circuit give inner product 1;
a 2-qubit against a 1-qubit state is a value error. -/
theorem c5_inner_product_witness :
    ((QuantumState.from_circuit exC2).bind (fun s =>
      (QuantumState.from_circuit exC2).bind (fun t => s.inner_product t))) =
        Except.ok (1, 1) ∧
    ((QuantumState.from_circuit exC2).bind (fun s =>
      (QuantumState.from_circuit exH1).bind (fun t => s.inner_product t))) =
        Except.error Err.value := by
  obtain ⟨s, hs⟩ : ∃ s, QuantumState.from_circuit exC2 = Except.ok s := ⟨_, rfl⟩
  obtain ⟨t, ht⟩ : ∃ t, QuantumState.from_circuit exH1 = Except.ok t := ⟨_, rfl⟩
  constructor
  · rw [hs]
    simp only [Except.bind]
    exact c5_inner_product.1 exC2 s s hs hs
  · rw [hs, ht]
    simp only [Except.bind]
    apply c5_inner_product.2
    rw [from_circuit_num_qubits hs, from_circuit_num_qubits ht]
    decide

/-- C6: `exp_value` fails with a value error whenever the width of the Pauli
differs from the state's qubit count — dense too long, dense too short, or
sparse with an implied width exceeding n (sparse width = largest index + 1). -/
theorem c6_exp_value_width (s : QuantumState) (p : PauliString)
    (h : p.width ≠ s.num_qubits) : s.exp_value p = .error .value := by
  unfold QuantumState.exp_value
  rw [if_neg h]

def exC3 : QuantumCircuit := ⟨3, []⟩

/-- Witness for C6: the three mismatch shapes of the tests — dense "ZZIIII"
(width 6), sparse "Z0 Y2 X4" (width 5), dense "ZI" (width 2) — against a
3-qubit state. -/
theorem c6_exp_value_width_witness :
    PauliString.from_str "ZZIIII" = Except.ok ⟨[.Z, .Z, .I, .I, .I, .I]⟩ ∧
    PauliString.from_str "Z0 Y2 X4" = Except.ok ⟨[.Z, .I, .Y, .I, .X]⟩ ∧
    PauliString.from_str "ZI" = Except.ok ⟨[.Z, .I]⟩ ∧
    ((QuantumState.from_circuit exC3).bind
      (fun s => s.exp_value ⟨[.Z, .Z, .I, .I, .I, .I]⟩)) = .error .value ∧
    ((QuantumState.from_circuit exC3).bind
      (fun s => s.exp_value ⟨[.Z, .I, .Y, .I, .X]⟩)) = .error .value ∧
    ((QuantumState.from_circuit exC3).bind
      (fun s => s.exp_value ⟨[.Z, .I]⟩)) = .error .value := by
  obtain ⟨s, hs⟩ : ∃ s, QuantumState.from_circuit exC3 = Except.ok s := ⟨_, rfl⟩
  refine ⟨by decide, by decide, by decide, ?_, ?_, ?_⟩ <;>
    (rw [hs]
     simp only [Except.bind]
     apply c6_exp_value_width
     rw [from_circuit_num_qubits hs]
     decide)

/-- C7: `sample` rejects the empty qubit list with a value error (as it does
duplicates and out-of-range indices), whereas `measure []` is allowed: it
returns an empty outcome list and leaves the state unchanged. -/
theorem c7_sample_vs_measure_empty :
    (∀ (s : QuantumState) (shots : ℕ) (us : ℕ → ℕ → Dy),
      s.sample [] shots us = .error .value) ∧
    (∀ (s : QuantumState) (qs : List ℕ) (shots : ℕ) (us : ℕ → ℕ → Dy),
      ¬ qs.Nodup → s.sample qs shots us = .error .value) ∧
    (∀ (s : QuantumState) (qs : List ℕ) (shots : ℕ) (us : ℕ → ℕ → Dy) (q : ℕ),
      q ∈ qs → s.num_qubits ≤ q → s.sample qs shots us = .error .value) ∧
    (∀ (s : QuantumState) (us : ℕ → Dy), s.measure [] us = .ok ([], s)) := by
  refine ⟨?_, ?_, ?_, ?_⟩
  · intro s shots us
    unfold QuantumState.sample
    rw [if_pos rfl]
  · intro s qs shots us hdup
    unfold QuantumState.sample
    by_cases hq : qs = []
    · rw [if_pos hq]
    · rw [if_neg hq, dif_neg (fun hcon => hdup hcon.1)]
  · intro s qs shots us q hmem hge
    unfold QuantumState.sample
    by_cases hq : qs = []
    · rw [if_pos hq]
    · rw [if_neg hq, dif_neg (fun hcon => absurd (hcon.2 q hmem) (not_lt.mpr hge))]
  · intro s us
    unfold QuantumState.measure
    rw [dif_pos ⟨List.nodup_nil, by simp⟩]

/-- Witness for C7 on a concrete 1-qubit state: empty sample, duplicate
sample, out-of-range sample all fail; empty measure returns ([], state). -/
theorem c7_sample_vs_measure_empty_witness :
    ((QuantumState.from_circuit exH1).bind
      (fun s => s.sample [] 5 (fun _ _ => Dy.half))) = .error .value ∧
    ((QuantumState.from_circuit exH1).bind
      (fun s => s.sample [0, 0] 5 (fun _ _ => Dy.half))) = .error .value ∧
    ((QuantumState.from_circuit exH1).bind
      (fun s => s.sample [3] 5 (fun _ _ => Dy.half))) = .error .value ∧
    ((QuantumState.from_circuit exH1).bind
      (fun s => s.measure [] (fun _ => Dy.half))) =
      (QuantumState.from_circuit exH1).map (fun s => ([], s)) := by
  obtain ⟨s, hs⟩ : ∃ s, QuantumState.from_circuit exH1 = Except.ok s := ⟨_, rfl⟩
  rw [hs]
  simp only [Except.bind, Except.map]
  refine ⟨c7_sample_vs_measure_empty.1 s 5 _, ?_, ?_, ?_⟩
  · exact c7_sample_vs_measure_empty.2.1 s [0, 0] 5 _ (by decide)
  · exact c7_sample_vs_measure_empty.2.2.1 s [3] 5 _ 3 (by decide)
      (by rw [from_circuit_num_qubits hs]; decide)
  · rw [c7_sample_vs_measure_empty.2.2.2 s _]

/-- C8: `random_clifford` fails with an overflow error exactly when the seed
is negative or at least 2^256; every in-range seed (including 2^256 − 1)
succeeds with a circuit on n qubits. -/
theorem c8_random_clifford_seed (n : ℕ) (seed : ℤ) :
    (QuantumCircuit.random_clifford n seed = .error .overflow ↔
      (seed < 0 ∨ 2 ^ 256 ≤ seed)) ∧
    (0 ≤ seed → seed < 2 ^ 256 →
      (QuantumCircuit.random_clifford n seed).map QuantumCircuit.num_qubits =
        .ok n) := by
  constructor
  · constructor
    · intro h
      by_contra hcon
      push_neg at hcon
      unfold QuantumCircuit.random_clifford at h
      rw [if_pos hcon] at h
      exact Except.noConfusion h
    · intro h
      unfold QuantumCircuit.random_clifford
      rw [if_neg (by omega)]
  · intro h1 h2
    unfold QuantumCircuit.random_clifford
    rw [if_pos ⟨h1, h2⟩]
    rfl

/-- Witness for C8: seed 2^256 − 1 succeeds on 4 qubits; 2^300 and −1 fail
with an overflow error. -/
theorem c8_random_clifford_seed_witness :
    (QuantumCircuit.random_clifford 4 ((2 : ℤ) ^ 256 - 1)).map
      QuantumCircuit.num_qubits = .ok 4 ∧
    QuantumCircuit.random_clifford 4 ((2 : ℤ) ^ 300) = .error .overflow ∧
    QuantumCircuit.random_clifford 4 (-1) = .error .overflow := by
  refine ⟨(c8_random_clifford_seed 4 _).2 (by norm_num) (by norm_num), ?_, ?_⟩
  · exact (c8_random_clifford_seed 4 _).1.mpr (Or.inr (by norm_num))
  · exact (c8_random_clifford_seed 4 _).1.mpr (Or.inl (by norm_num))

/-- C9: determinism of the seeded sampler: two calls with the same qubit count
and seed produce identical circuits — same gate count and gate-by-gate equal
names and operand lists. -/
theorem c9_random_clifford_deterministic (n : ℕ) (seed : ℤ)
    (c1 c2 : QuantumCircuit)
    (h1 : QuantumCircuit.random_clifford n seed = .ok c1)
    (h2 : QuantumCircuit.random_clifford n seed = .ok c2) :
    c1.gates.length = c2.gates.length ∧
    (∀ k : ℕ, (c1.gates[k]?).map QuantumGate.name =
      (c2.gates[k]?).map QuantumGate.name) ∧
    (∀ k : ℕ, (c1.gates[k]?).map QuantumGate.qubits =
      (c2.gates[k]?).map QuantumGate.qubits) := by
  have hc : c1 = c2 := by
    rw [h1] at h2
    exact Except.ok.inj h2
  subst hc
  exact ⟨rfl, fun k => rfl, fun k => rfl⟩

/-- Witness for C9 at the test's parameters (n = 4, the 64-bit-overflowing
seed 12345678901234567890): both calls succeed and agree; the generated
circuit has 7 gates. -/
theorem c9_random_clifford_deterministic_witness :
    (QuantumCircuit.random_clifford 4 12345678901234567890).map
      (fun c => c.gates.length) = Except.ok 7 := by
  obtain ⟨c, hc⟩ :
      ∃ c, QuantumCircuit.random_clifford 4 12345678901234567890 = Except.ok c :=
    ⟨_, rfl⟩
  have hdet := c9_random_clifford_deterministic 4 12345678901234567890 c c hc hc
  have hv : (QuantumCircuit.random_clifford 4 12345678901234567890).map
      (fun c => c.gates.length) = Except.ok 7 := by decide
  exact hv

/-- C10: the tensor product of circuits has the sum of the qubit counts, keeps
A's gates unchanged in front, and appends B's gates with every operand qubit
shifted up by A's qubit count, preserving names and order. -/
theorem c10_tensor (A B : QuantumCircuit) :
    (A.tensor B).num_qubits = A.num_qubits + B.num_qubits ∧
    (A.tensor B).gates.length = A.gates.length + B.gates.length ∧
    (A.tensor B).gates.take A.gates.length = A.gates ∧
    (A.tensor B).gates.drop A.gates.length =
      B.gates.map (fun g => ⟨g.name, g.qubits.map (· + A.num_qubits)⟩) := by
  refine ⟨rfl, ?_, ?_, ?_⟩
  · simp [QuantumCircuit.tensor]
  · simp only [QuantumCircuit.tensor]
    exact List.take_left _ _
  · simp only [QuantumCircuit.tensor]
    exact List.drop_left _ _

theorem sumAmp_projTerms {n : ℕ} (q : Fin n) (b : Bool) (ts : Terms n) (f : Asgn n) :
    sumAmp (projTerms q b ts) f = if f q = b then sumAmp ts f else 0 := by
  unfold projTerms mapTerms sumAmp projV
  rw [List.map_map]
  by_cases hf : f q = b
  · rw [if_pos hf]
    congr 1
    refine List.map_congr_left (fun cv _ => ?_)
    simp [Function.comp, if_pos hf]
  · rw [if_neg hf]
    apply List.sum_eq_zero
    intro x hx
    obtain ⟨cv, _, rfl⟩ := List.mem_map.mp hx
    simp [Function.comp, if_neg hf]

noncomputable def Real2.toRHom : Real2 →+ ℝ where
  toFun := Real2.toR
  map_zero' := Real2.toR_zero
  map_add' := Real2.toR_add

theorem rawNormSq_toR_nonneg {n : ℕ} (ts : Terms n) : 0 ≤ Real2.toR (rawNormSq ts) := by
  unfold rawNormSq
  rw [show Real2.toR (∑ f : Asgn n, (sumAmp ts f).abs2)
      = Real2.toRHom (∑ f : Asgn n, (sumAmp ts f).abs2) from rfl, map_sum]
  exact Finset.sum_nonneg (fun f _ => Cyc8.abs2_nonneg _)

theorem rawNormSq_toR_pos {n : ℕ} {ts : Terms n} (h : rawNormSq ts ≠ 0) :
    0 < Real2.toR (rawNormSq ts) := by
  rcases lt_or_eq_of_le (rawNormSq_toR_nonneg ts) with hlt | heq
  · exact hlt
  · exact absurd ((Real2.toR_eq_zero_iff _).mp heq.symm) h

theorem rawNormSq_proj_split {n : ℕ} (q : Fin n) (ts : Terms n) :
    rawNormSq (projTerms q true ts) + rawNormSq (projTerms q false ts) =
      rawNormSq ts := by
  unfold rawNormSq
  rw [← Finset.sum_add_distrib]
  apply Finset.sum_congr rfl
  intro f _
  rw [sumAmp_projTerms, sumAmp_projTerms]
  rcases hf : f q with _ | _ <;> simp [hf]

theorem rawNormSq_congr {n : ℕ} {ts ts' : Terms n}
    (h : ∀ f, sumAmp ts f = sumAmp ts' f) : rawNormSq ts = rawNormSq ts' := by
  unfold rawNormSq
  exact Finset.sum_congr rfl (fun f _ => by rw [h f])

theorem rawNormSq_eq_zero_of_amps {n : ℕ} {ts : Terms n}
    (h : ∀ f, sumAmp ts f = 0) : rawNormSq ts = 0 := by
  unfold rawNormSq
  exact Finset.sum_eq_zero (fun f _ => by rw [h f, Cyc8.abs2_zero])

theorem toR_uPair (u : Dy) : Real2.toR ⟨u, 0⟩ = (u.val : ℝ) := by
  unfold Real2.toR
  simp

theorem measureStep_snd {n : ℕ} (q : Fin n) (u : Dy) (ts : Terms n) (f : Asgn n) :
    sumAmp (measureStep q u ts).2 f =
      if f q = (measureStep q u ts).1 then sumAmp ts f else 0 :=
  sumAmp_projTerms q _ ts f

theorem measureStep_pos {n : ℕ} (q : Fin n) (u : Dy) (ts : Terms n)
    (hu0 : Dy.ble 0 u = true) (hu1 : Dy.ble 1 u = false)
    (hN : rawNormSq ts ≠ 0) :
    rawNormSq (measureStep q u ts).2 ≠ 0 := by
  have hNpos := rawNormSq_toR_pos hN
  have hu0R : (0 : ℝ) ≤ (u.val : ℝ) := by
    have := (Dy.ble_iff 0 u).mp hu0
    simp only [Dy.val_zero] at this
    exact_mod_cast this
  have hu1R : (u.val : ℝ) < 1 := by
    have : ¬ (1 : ℚ) ≤ u.val := by
      intro hc
      rw [(Dy.ble_iff 1 u).mpr (by simpa using hc)] at hu1
      exact Bool.noConfusion hu1
    have := not_le.mp this
    exact_mod_cast this
  unfold measureStep
  rcases hb : Real2.blt (⟨u, 0⟩ * rawNormSq ts)
      (rawNormSq (projTerms q true ts)) with _ | _
  · simp only [hb]
    intro hzero
    have hsplit := rawNormSq_proj_split q ts
    rw [hzero, add_zero] at hsplit
    have hbt : Real2.blt (⟨u, 0⟩ * rawNormSq ts)
        (rawNormSq (projTerms q true ts)) = true := by
      rw [Real2.blt_iff, hsplit, Real2.toR_mul, toR_uPair]
      nlinarith [hNpos, mul_pos (show (0:ℝ) < 1 - (u.val : ℝ) by linarith) hNpos]
    rw [hbt] at hb
    exact Bool.noConfusion hb
  · simp only [hb]
    intro hzero
    have hlt := (Real2.blt_iff _ _).mp hb
    rw [hzero, Real2.toR_zero, Real2.toR_mul, toR_uPair] at hlt
    nlinarith [hNpos, hu0R]

theorem measureStep_forced {n : ℕ} (q : Fin n) (u : Dy) (ts : Terms n) (b : Bool)
    (hu0 : Dy.ble 0 u = true) (hu1 : Dy.ble 1 u = false)
    (hN : rawNormSq ts ≠ 0)
    (hsupp : ∀ f, sumAmp ts f ≠ 0 → f q = b) :
    (measureStep q u ts).1 = b ∧
    (∀ f, sumAmp (measureStep q u ts).2 f = sumAmp ts f) := by
  have hNpos := rawNormSq_toR_pos hN
  have hu0R : (0 : ℝ) ≤ (u.val : ℝ) := by
    have := (Dy.ble_iff 0 u).mp hu0
    simp only [Dy.val_zero] at this
    exact_mod_cast this
  have hu1R : (u.val : ℝ) < 1 := by
    have : ¬ (1 : ℚ) ≤ u.val := by
      intro hc
      rw [(Dy.ble_iff 1 u).mpr (by simpa using hc)] at hu1
      exact Bool.noConfusion hu1
    have := not_le.mp this
    exact_mod_cast this
  have hproj : ∀ f, sumAmp (projTerms q b ts) f = sumAmp ts f := by
    intro f
    rw [sumAmp_projTerms]
    by_cases hf : f q = b
    · rw [if_pos hf]
    · rw [if_neg hf]
      by_cases hz : sumAmp ts f = 0
      · rw [hz]
      · exact absurd (hsupp f hz) hf
  have hother : ∀ f, sumAmp (projTerms q (!b) ts) f = 0 := by
    intro f
    rw [sumAmp_projTerms]
    by_cases hf : f q = !b
    · rw [if_pos hf]
      by_cases hz : sumAmp ts f = 0
      · exact hz
      · have hb' := hsupp f hz
        rw [hb'] at hf
        cases b <;> simp at hf
    · rw [if_neg hf]
  rcases b with _ | _
  · have hNt : rawNormSq (projTerms q true ts) = 0 :=
      rawNormSq_eq_zero_of_amps hother
    have hb : Real2.blt (⟨u, 0⟩ * rawNormSq ts)
        (rawNormSq (projTerms q true ts)) = false := by
      rw [Bool.eq_false_iff]
      intro hc
      have hlt := (Real2.blt_iff _ _).mp hc
      rw [hNt, Real2.toR_zero, Real2.toR_mul, toR_uPair] at hlt
      nlinarith [hNpos, hu0R]
    unfold measureStep
    simp only [hb]
    exact ⟨trivial, hproj⟩
  · have hNt : rawNormSq (projTerms q true ts) = rawNormSq ts :=
      rawNormSq_congr hproj
    have hb : Real2.blt (⟨u, 0⟩ * rawNormSq ts)
        (rawNormSq (projTerms q true ts)) = true := by
      rw [Real2.blt_iff, hNt, Real2.toR_mul, toR_uPair]
      nlinarith [hNpos, mul_pos (show (0:ℝ) < 1 - (u.val : ℝ) by linarith) hNpos]
    unfold measureStep
    simp only [hb]
    exact ⟨trivial, hproj⟩

theorem measureGo_spec {n : ℕ} (qs : List (Fin n)) :
    ∀ (us : ℕ → Dy) (ts : Terms n),
      (∀ i, Dy.ble 0 (us i) = true ∧ Dy.ble 1 (us i) = false) →
      rawNormSq ts ≠ 0 →
      (measureGo qs us ts).1.length = qs.length ∧
      rawNormSq (measureGo qs us ts).2 ≠ 0 ∧
      (∀ f, sumAmp (measureGo qs us ts).2 f ≠ 0 →
        sumAmp (measureGo qs us ts).2 f = sumAmp ts f) ∧
      (∀ f, sumAmp (measureGo qs us ts).2 f ≠ 0 →
        ∀ pr ∈ List.zip qs (measureGo qs us ts).1, f pr.1 = pr.2) := by
  induction qs with
  | nil =>
      intro us ts hu hN
      exact ⟨rfl, hN, fun f _ => rfl, fun f _ pr hpr => absurd hpr (by simp)⟩
  | cons q qs ih =>
      intro us ts hu hN
      have hstep2 := measureStep_snd q (us 0) ts
      have hstepN := measureStep_pos q (us 0) ts (hu 0).1 (hu 0).2 hN
      obtain ⟨ihlen, ihN, ihpres, ihsupp⟩ :=
        ih (fun i => us (i + 1)) (measureStep q (us 0) ts).2 (fun i => hu (i + 1)) hstepN
      simp only [measureGo]
      refine ⟨by simp [ihlen], ihN, ?_, ?_⟩
      · intro f hf
        have h1 := ihpres f hf
        rw [h1] at hf ⊢
        rw [hstep2 f] at hf ⊢
        by_cases hcond : f q = (measureStep q (us 0) ts).1
        · rw [if_pos hcond]
        · rw [if_neg hcond] at hf
          exact absurd rfl hf
      · intro f hf pr hpr
        rw [List.zip_cons_cons] at hpr
        rcases List.mem_cons.mp hpr with hhead | htail
        · subst hhead
          have h1 := ihpres f hf
          rw [h1, hstep2 f] at hf
          by_cases hcond : f q = (measureStep q (us 0) ts).1
          · exact hcond
          · rw [if_neg hcond] at hf
            exact absurd rfl hf
        · exact ihsupp f hf pr htail

theorem measureGo_det {n : ℕ} (qs : List (Fin n)) :
    ∀ (us : ℕ → Dy) (ts : Terms n) (bs : List Bool),
      (∀ i, Dy.ble 0 (us i) = true ∧ Dy.ble 1 (us i) = false) →
      rawNormSq ts ≠ 0 →
      bs.length = qs.length →
      (∀ f, sumAmp ts f ≠ 0 → ∀ pr ∈ List.zip qs bs, f pr.1 = pr.2) →
      (measureGo qs us ts).1 = bs ∧
      (∀ f, sumAmp (measureGo qs us ts).2 f = sumAmp ts f) := by
  induction qs with
  | nil =>
      intro us ts bs hu hN hlen hsupp
      have hbs : bs = [] := List.length_eq_zero.mp hlen
      subst hbs
      exact ⟨rfl, fun f => rfl⟩
  | cons q qs ih =>
      intro us ts bs hu hN hlen hsupp
      rcases bs with _ | ⟨b, bs'⟩
      · simp at hlen
      · have hhead : ∀ f, sumAmp ts f ≠ 0 → f q = b := by
          intro f hf
          exact hsupp f hf (q, b) (by rw [List.zip_cons_cons]; exact List.mem_cons_self _ _)
        obtain ⟨hout, hamps⟩ :=
          measureStep_forced q (us 0) ts b (hu 0).1 (hu 0).2 hN hhead
        have hNeq : rawNormSq (measureStep q (us 0) ts).2 = rawNormSq ts :=
          rawNormSq_congr hamps
        have hsupp' : ∀ f, sumAmp (measureStep q (us 0) ts).2 f ≠ 0 →
            ∀ pr ∈ List.zip qs bs', f pr.1 = pr.2 := by
          intro f hf pr hpr
          rw [hamps f] at hf
          exact hsupp f hf pr (by rw [List.zip_cons_cons]; exact List.mem_cons_of_mem _ hpr)
        obtain ⟨ih1, ih2⟩ := ih (fun i => us (i + 1)) (measureStep q (us 0) ts).2 bs'
          (fun i => hu (i + 1)) (by rw [hNeq]; exact hN) (by simpa using hlen) hsupp'
        simp only [measureGo]
        constructor
        · rw [hout, ih1]
        · intro f
          rw [ih2 f, hamps f]

theorem measure_cons_eq {s : QuantumState} {q : ℕ} {rest : List ℕ} {us : ℕ → Dy}
    (h : (q :: rest).Nodup ∧ ∀ x ∈ q :: rest, x < s.num_qubits) :
    s.measure (q :: rest) us =
      .ok ((measureGo (List.pmap (fun a ha => (⟨a, ha⟩ : Fin s.num_qubits))
            (q :: rest) h.2) us s.terms).1,
        ⟨s.num_qubits,
         (measureGo (List.pmap (fun a ha => (⟨a, ha⟩ : Fin s.num_qubits))
            (q :: rest) h.2) us s.terms).2,
         rawNormSq ((measureGo (List.pmap (fun a ha => (⟨a, ha⟩ : Fin s.num_qubits))
            (q :: rest) h.2) us s.terms).2)⟩) := by
  unfold QuantumState.measure
  rw [dif_pos h]

theorem enumAsgn_complete : ∀ {n : ℕ} (f : Asgn n), f ∈ enumAsgn n := by
  intro n
  induction n with
  | zero =>
      intro f
      unfold enumAsgn
      rw [List.mem_singleton]
      funext i
      exact i.elim0
  | succ n ih =>
      intro f
      unfold enumAsgn
      rw [List.mem_flatMap]
      refine ⟨Fin.tail f, ih _, ?_⟩
      have hf : f = Fin.cons (f 0) (Fin.tail f) := (Fin.cons_self_tail f).symm
      rcases hb : f 0 with _ | _
      · rw [hf, hb]
        exact List.mem_cons_self _ _
      · rw [hf, hb]
        exact List.mem_cons_of_mem _ (List.mem_cons_self _ _)

theorem consFalse_ne_consTrue {n : ℕ} (g g' : Fin n → Bool) :
    (Fin.cons false g : Asgn (n + 1)) ≠ Fin.cons true g' := by
  intro h
  have h0 := congrFun h 0
  rw [Fin.cons_zero, Fin.cons_zero] at h0
  exact Bool.noConfusion h0

theorem enumAsgn_nodup : ∀ n : ℕ, (enumAsgn n).Nodup := by
  intro n
  induction n with
  | zero => exact List.nodup_singleton _
  | succ n ih =>
      unfold enumAsgn
      rw [List.nodup_flatMap]
      constructor
      · intro g _
        refine List.nodup_cons.mpr ⟨?_, List.nodup_singleton _⟩
        rw [List.mem_singleton]
        exact consFalse_ne_consTrue g g
      · refine List.Pairwise.imp ?_ ih
        intro g g' hgg' x hx hx'
        have htail : Fin.tail x = g := by
          rcases List.mem_cons.mp hx with h1 | h1
          · rw [h1, Fin.tail_cons]
          · rw [List.mem_singleton.mp h1, Fin.tail_cons]
        have htail' : Fin.tail x = g' := by
          rcases List.mem_cons.mp hx' with h1 | h1
          · rw [h1, Fin.tail_cons]
          · rw [List.mem_singleton.mp h1, Fin.tail_cons]
        exact hgg' (htail.symm.trans htail')

theorem statevector_onehot {n : ℕ} {T : Terms n} {f0 : Asgn n}
    (h0 : sumAmp T f0 ≠ 0) (huniq : ∀ f, sumAmp T f ≠ 0 → f = f0) :
    ((enumAsgn n).map (sumVec T)).filter (fun z => decide (z ≠ 0)) =
      [sumAmp T f0] := by
  rw [List.filter_map]
  have hfil : (enumAsgn n).filter ((fun z => decide (z ≠ 0)) ∘ sumVec T) =
      (enumAsgn n).filter (fun f => f == f0) := by
    apply List.filter_congr
    intro f _
    by_cases hf : f = f0
    · subst hf
      simp [Function.comp, sumVec, h0]
    · have hz : sumAmp T f = 0 := by
        by_contra hc
        exact hf (huniq f hc)
      simp [Function.comp, sumVec, hz, hf]
  rw [hfil, List.filter_beq, List.count_eq_one_of_mem (enumAsgn_nodup n) (enumAsgn_complete f0),
    List.replicate_one, List.map_singleton]
  rfl

theorem rawNormSq_single {n : ℕ} {T : Terms n} {f0 : Asgn n}
    (huniq : ∀ f, sumAmp T f ≠ 0 → f = f0) :
    rawNormSq T = (sumAmp T f0).abs2 := by
  unfold rawNormSq
  rw [Finset.sum_eq_single f0]
  · intro g _ hg
    have hz : sumAmp T g = 0 := by
      by_contra hc
      exact hg (huniq g hc)
    rw [hz, Cyc8.abs2_zero]
  · intro hmem
    exact absurd (Finset.mem_univ _) hmem

theorem measure_nil_eq (s : QuantumState) (us : ℕ → Dy) :
    s.measure [] us = .ok ([], s) := by
  unfold QuantumState.measure
  rw [dif_pos ⟨List.nodup_nil, by simp⟩]

theorem project_then_measure {s s' : QuantumState} {q : ℕ} {b : Bool} {us : ℕ → Dy}
    (hp : s.project_normalized q b = .ok s')
    (hu : ∀ i, Dy.ble 0 (us i) = true ∧ Dy.ble 1 (us i) = false) :
    (s'.measure [q] us).map Prod.fst = .ok [b] := by
  unfold QuantumState.project_normalized at hp
  split at hp
  · rename_i hq
    split at hp
    · exact Except.noConfusion hp
    · rename_i hNz
      cases hp
      have hcond : ([q] : List ℕ).Nodup ∧
          ∀ x ∈ [q], x < (QuantumState.mk s.num_qubits
            (projTerms ⟨q, hq⟩ b s.terms)
            (rawNormSq (projTerms ⟨q, hq⟩ b s.terms))).num_qubits := by
        refine ⟨List.nodup_singleton q, ?_⟩
        intro x hx
        rw [List.mem_singleton.mp hx]
        exact hq
      rw [measure_cons_eq hcond]
      simp only [Except.map]
      have hdet := measureGo_det
        (List.pmap (fun a ha => (⟨a, ha⟩ : Fin s.num_qubits)) [q] hcond.2)
        us (projTerms ⟨q, hq⟩ b s.terms) [b] hu hNz (by simp)
        (by
          intro f hf pr hpr
          simp only [List.pmap, List.zip_cons_cons, List.zip_nil_right] at hpr
          rw [List.mem_singleton] at hpr
          subst hpr
          rw [sumAmp_projTerms] at hf
          by_cases hc : f ⟨q, hq⟩ = b
          · exact hc
          · rw [if_neg hc] at hf
            exact absurd rfl hf)
      exact congrArg Except.ok hdet.1
  · exact Except.noConfusion hp

theorem to_statevector_fst (n : ℕ) (T : Terms n) (d : Real2) :
    (QuantumState.mk n T d).to_statevector.1 = (enumAsgn n).map (sumVec T) := rfl

theorem measure_cons_inv {s : QuantumState} {q0 : ℕ} {Q' : List ℕ} {us : ℕ → Dy}
    {bs : List Bool} {s' : QuantumState}
    (hm : s.measure (q0 :: Q') us = .ok (bs, s')) :
    ∃ h : (q0 :: Q').Nodup ∧ ∀ x ∈ q0 :: Q', x < s.num_qubits,
      bs = (measureGo (List.pmap (fun a ha => (⟨a, ha⟩ : Fin s.num_qubits))
              (q0 :: Q') h.2) us s.terms).1 ∧
      s' = ⟨s.num_qubits,
        (measureGo (List.pmap (fun a ha => (⟨a, ha⟩ : Fin s.num_qubits))
          (q0 :: Q') h.2) us s.terms).2,
        rawNormSq ((measureGo (List.pmap (fun a ha => (⟨a, ha⟩ : Fin s.num_qubits))
          (q0 :: Q') h.2) us s.terms).2)⟩ := by
  unfold QuantumState.measure at hm
  split at hm
  · rename_i h
    exact ⟨h, (congrArg Prod.fst (Except.ok.inj hm)).symm,
      (congrArg Prod.snd (Except.ok.inj hm)).symm⟩
  · exact Except.noConfusion hm

theorem measure_cover_onehot {s : QuantumState} {q0 : ℕ} {Q' : List ℕ}
    {us : ℕ → Dy} {bs : List Bool} {s' : QuantumState}
    (hm : s.measure (q0 :: Q') us = .ok (bs, s'))
    (hu : ∀ i, Dy.ble 0 (us i) = true ∧ Dy.ble 1 (us i) = false)
    (hN : rawNormSq s.terms ≠ 0)
    (hcov : ∀ j, j < s.num_qubits → j ∈ q0 :: Q') :
    (s'.to_statevector.1.filter (fun z => decide (z ≠ 0))).length = 1 ∧
    (∀ z ∈ s'.to_statevector.1.filter (fun z => decide (z ≠ 0)),
      z.abs2 = s'.denom) := by
  obtain ⟨h, hbs, hs'⟩ := measure_cons_inv hm
  obtain ⟨hlen, hN', hpres, hsupp⟩ := measureGo_spec
    (List.pmap (fun a ha => (⟨a, ha⟩ : Fin s.num_qubits)) (q0 :: Q') h.2)
    us s.terms hu hN
  obtain ⟨f0, hf0⟩ : ∃ f, sumAmp (measureGo
      (List.pmap (fun a ha => (⟨a, ha⟩ : Fin s.num_qubits)) (q0 :: Q') h.2)
      us s.terms).2 f ≠ 0 := by
    by_contra hno
    push_neg at hno
    exact hN' (rawNormSq_eq_zero_of_amps hno)
  have huniq : ∀ f, sumAmp (measureGo
      (List.pmap (fun a ha => (⟨a, ha⟩ : Fin s.num_qubits)) (q0 :: Q') h.2)
      us s.terms).2 f ≠ 0 → f = f0 := by
    intro f hf
    funext j
    have hjQ : j.val ∈ q0 :: Q' := hcov j.val j.isLt
    have hjfins : j ∈ List.pmap (fun a ha => (⟨a, ha⟩ : Fin s.num_qubits))
        (q0 :: Q') h.2 := List.mem_pmap.mpr ⟨j.val, hjQ, rfl⟩
    obtain ⟨k, hklen, hk⟩ := List.mem_iff_getElem.mp hjfins
    have hkb : k < (measureGo
        (List.pmap (fun a ha => (⟨a, ha⟩ : Fin s.num_qubits)) (q0 :: Q') h.2)
        us s.terms).1.length := by
      rw [hlen]
      exact hklen
    have hkz : k < (List.zip
        (List.pmap (fun a ha => (⟨a, ha⟩ : Fin s.num_qubits)) (q0 :: Q') h.2)
        (measureGo (List.pmap (fun a ha => (⟨a, ha⟩ : Fin s.num_qubits))
          (q0 :: Q') h.2) us s.terms).1).length := by
      rw [List.length_zip]
      exact lt_min hklen hkb
    have hmem := List.getElem_mem hkz
    rw [List.getElem_zip, hk] at hmem
    have h1 := hsupp f hf _ hmem
    have h2 := hsupp f0 hf0 _ hmem
    exact h1.trans h2.symm
  subst hbs hs'
  have honehot := statevector_onehot hf0 huniq
  constructor
  · rw [to_statevector_fst, honehot]
    rfl
  · intro z hz
    rw [to_statevector_fst, honehot, List.mem_singleton] at hz
    subst hz
    exact (rawNormSq_single huniq).symm

theorem measure_remeasure {s : QuantumState} {Q : List ℕ} {us us' : ℕ → Dy}
    {bs : List Bool} {s' : QuantumState}
    (hm : s.measure Q us = .ok (bs, s'))
    (hu : ∀ i, Dy.ble 0 (us i) = true ∧ Dy.ble 1 (us i) = false)
    (hu' : ∀ i, Dy.ble 0 (us' i) = true ∧ Dy.ble 1 (us' i) = false)
    (hN : rawNormSq s.terms ≠ 0) :
    (s'.measure Q us').map Prod.fst = .ok bs := by
  rcases Q with _ | ⟨q0, Q'⟩
  · rw [measure_nil_eq] at hm
    have h2 := Except.ok.inj hm
    have hbs : bs = [] := (congrArg Prod.fst h2).symm
    have hss : s' = s := (congrArg Prod.snd h2).symm
    subst hbs
    subst hss
    rw [measure_nil_eq]
    rfl
  · obtain ⟨h, hbs, hs'⟩ := measure_cons_inv hm
    obtain ⟨hlen, hN', hpres, hsupp⟩ := measureGo_spec
      (List.pmap (fun a ha => (⟨a, ha⟩ : Fin s.num_qubits)) (q0 :: Q') h.2)
      us s.terms hu hN
    subst hbs hs'
    have hcond : (q0 :: Q').Nodup ∧ ∀ x ∈ q0 :: Q',
        x < (QuantumState.mk s.num_qubits
          (measureGo (List.pmap (fun a ha => (⟨a, ha⟩ : Fin s.num_qubits))
            (q0 :: Q') h.2) us s.terms).2
          (rawNormSq ((measureGo (List.pmap (fun a ha => (⟨a, ha⟩ : Fin s.num_qubits))
            (q0 :: Q') h.2) us s.terms).2))).num_qubits := ⟨h.1, h.2⟩
    rw [measure_cons_eq hcond]
    simp only [Except.map]
    exact congrArg Except.ok (measureGo_det
      (List.pmap (fun a ha => (⟨a, ha⟩ : Fin s.num_qubits)) (q0 :: Q') h.2)
      us'
      (measureGo (List.pmap (fun a ha => (⟨a, ha⟩ : Fin s.num_qubits))
        (q0 :: Q') h.2) us s.terms).2
      (measureGo (List.pmap (fun a ha => (⟨a, ha⟩ : Fin s.num_qubits))
        (q0 :: Q') h.2) us s.terms).1
      hu' hN' hlen hsupp).1

/-- 2-qubit circuit with a single Hadamard on qubit 1, used to exhibit a
partial-list measurement that does not collapse the whole register. -/
def exH2 : QuantumCircuit := ⟨2, [⟨"H", [1]⟩]⟩

/-- The constant draw stream ½, ½, … — a valid uniform stream in [0,1). -/
def usHalf : ℕ → Dy := fun _ => Dy.half

/-- The 1-qubit computational basis state |0⟩ with formal denominator 1. -/
def c4base : QuantumState := ⟨1, [(1, e0)], 1⟩

/-- C4 (amended): collapse is idempotent.  (i) After `project_normalized q b`
succeeds, `measure [q]` returns `[b]` with probability 1 — for every stream of
uniform draws.  (ii) After a successful `measure` on a NONEMPTY qubit list
covering every qubit of a state of nonzero norm, the statevector is one-hot
and the surviving amplitude has unit magnitude (|z|² equals the formal
denominator, i.e. |z/√denom| = 1).  (iii) After a successful `measure` on any
qubit list, re-measuring the same qubits returns the same outcome bits, for
every draw stream.  The original claim's one-hot clause for arbitrary qubit
lists is refuted by `c4_counterexample`: measuring a strict subset of the
qubits leaves the unmeasured qubits in superposition. -/
theorem c4_collapse :
    (∀ (s s' : QuantumState) (q : ℕ) (b : Bool) (us : ℕ → Dy),
      s.project_normalized q b = .ok s' →
      (∀ i, Dy.ble 0 (us i) = true ∧ Dy.ble 1 (us i) = false) →
      (s'.measure [q] us).map Prod.fst = .ok [b]) ∧
    (∀ (s s' : QuantumState) (q0 : ℕ) (Q' : List ℕ) (us : ℕ → Dy) (bs : List Bool),
      s.measure (q0 :: Q') us = .ok (bs, s') →
      (∀ i, Dy.ble 0 (us i) = true ∧ Dy.ble 1 (us i) = false) →
      rawNormSq s.terms ≠ 0 →
      (∀ j, j < s.num_qubits → j ∈ q0 :: Q') →
      (s'.to_statevector.1.filter (fun z => decide (z ≠ 0))).length = 1 ∧
      (∀ z ∈ s'.to_statevector.1.filter (fun z => decide (z ≠ 0)),
        z.abs2 = s'.denom)) ∧
    (∀ (s s' : QuantumState) (Q : List ℕ) (us us' : ℕ → Dy) (bs : List Bool),
      s.measure Q us = .ok (bs, s') →
      (∀ i, Dy.ble 0 (us i) = true ∧ Dy.ble 1 (us i) = false) →
      (∀ i, Dy.ble 0 (us' i) = true ∧ Dy.ble 1 (us' i) = false) →
      rawNormSq s.terms ≠ 0 →
      (s'.measure Q us').map Prod.fst = .ok bs) :=
  ⟨fun _ _ _ _ _ hp hu => project_then_measure hp hu,
   fun _ _ _ _ _ _ hm hu hN hcov => measure_cover_onehot hm hu hN hcov,
   fun _ _ _ _ _ _ hm hu hu' hN => measure_remeasure hm hu hu' hN⟩

/-- C4 counterexample to the original claim: measuring only qubit 0 of the
2-qubit state H(1)|00⟩ succeeds (outcome 0 with probability 1) but leaves the
statevector with TWO nonzero amplitudes — not one-hot, so the one-hot clause
fails for qubit lists that do not cover every qubit. -/
theorem c4_counterexample :
    ((QuantumState.from_circuit exH2).bind
        (fun s => s.measure [0] usHalf)).map
      (fun r => (r.2.to_statevector.1.filter (fun z => decide (z ≠ 0))).length) =
      .ok 2 := by decide

/-- Witness for C4 on the 1-qubit state |0⟩ with the constant draw stream ½:
projecting onto outcome 0 and then measuring returns [0]; measuring qubit 0
leaves a one-hot statevector; re-measuring returns the same bit. -/
theorem c4_collapse_witness :
    ((c4base.project_normalized 0 false).bind
        (fun t => (t.measure [0] usHalf).map Prod.fst)) = .ok [false] ∧
    ((c4base.measure [0] usHalf).map
        (fun r => (r.2.to_statevector.1.filter (fun z => decide (z ≠ 0))).length)) =
      .ok 1 ∧
    ((c4base.measure [0] usHalf).bind
        (fun r => (r.2.measure [0] usHalf).map Prod.fst)) = .ok [false] := by
  have hu : ∀ i, Dy.ble 0 (usHalf i) = true ∧ Dy.ble 1 (usHalf i) = false :=
    fun _ => ⟨rfl, rfl⟩
  obtain ⟨t, ht⟩ : ∃ t, c4base.project_normalized 0 false = Except.ok t := ⟨_, rfl⟩
  obtain ⟨r, hr⟩ : ∃ r, c4base.measure [0] usHalf = Except.ok r := ⟨_, rfl⟩
  refine ⟨?_, ?_, ?_⟩
  · rw [ht]
    exact c4_collapse.1 c4base t 0 false usHalf ht hu
  · rw [hr]
    exact congrArg Except.ok
      (c4_collapse.2.1 c4base r.2 0 [] usHalf r.1 hr hu (by decide)
        (fun j hj => List.mem_singleton.mpr (Nat.lt_one_iff.mp hj))).1
  · rw [hr]
    have h3 := c4_collapse.2.2 c4base r.2 [0] usHalf usHalf r.1 hr hu hu (by decide)
    have hb : r.1 = [false] := by
      have hfst : (c4base.measure [0] usHalf).map Prod.fst = Except.ok [false] := by
        decide
      rw [hr] at hfst
      exact Except.ok.inj hfst
    rw [← hb]
    exact h3
